import Mathlib

/-!
Verification of the market-engine limit order book (map-based implementation:
`src/order_book.cpp`, `include/order_book.hpp`, and the driver `main`).

The embedding models:
* the input validator (`validate_inputs`) including its `std::regex` patterns and
  the `stof`-based tick comparison (exact IEEE-754 binary32/binary64 semantics,
  computed with integer arithmetic);
* the fixed-point price scaling (`stof(price_str) * SCALE_FACTOR` truncated);
* `OrderBook::add_order`, `OrderBook::execute_and_print_trades` over ordered
  association lists standing for `std::map`;
* the price rendering used by the trade printer (`operator<<` default float
  formatting) and the book printer (`std::format` shortest round-trip).
-/

set_option autoImplicit false

namespace MarketEngine

/-! ## Exact binary floating-point arithmetic on nonnegative rationals

A floating-point value is represented as a pair `(m, e) : Nat × Int` standing for
`m * 2 ^ e`.  Rounding of a nonnegative rational `a / b` is IEEE round-to-nearest,
ties to even, with `prec + 1` significand bits and minimum (normal) exponent
`emin`; gradual underflow uses the fixed subnormal grid `2 ^ (emin - prec)`.
-/

/-- Floor of the base-2 logarithm, computed with explicit fuel; fuel `n` always
suffices for input `n`, and `ilog2 0 = 0`. -/
def ilog2Aux : Nat → Nat → Nat
  | 0, _ => 0
  | f + 1, n => if 2 ≤ n then ilog2Aux f (n / 2) + 1 else 0

def ilog2 (n : Nat) : Nat := ilog2Aux n n

/-- Round-half-to-even integer division: the nearest integer to `a / b`, ties to
the even candidate. -/
def rndDiv (a b : Nat) : Nat :=
  let q := a / b
  let r := a % b
  if 2 * r < b then q
  else if b < 2 * r then q + 1
  else if q % 2 = 0 then q else q + 1

/-- Round the nonnegative rational `a / b` to a binary floating-point value with
`prec + 1` significand bits and minimum normal exponent `emin` (round to nearest,
ties to even, gradual underflow, unbounded exponent at the top). -/
def roundFP (prec : Nat) (emin : Int) (a b : Nat) : Nat × Int :=
  if a = 0 ∨ b = 0 then (0, 0)
  else
    let shift : Nat := ilog2 b + 201 + (-emin).toNat + prec
    let q := a * 2 ^ shift / b
    let e : Int := (ilog2 q : Int) - shift
    let eEff : Int := max e emin
    let g : Int := eEff - prec
    let m := if g ≤ 0 then rndDiv (a * 2 ^ (-g).toNat) b else rndDiv a (b * 2 ^ g.toNat)
    (m, g)

/-- Value comparison `m₁ * 2 ^ e₁ < m₂ * 2 ^ e₂` of two floating-point values. -/
def fpLtB (x y : Nat × Int) : Bool :=
  let b := min x.2 y.2
  x.1 * 2 ^ (x.2 - b).toNat < y.1 * 2 ^ (y.2 - b).toNat

/-- Value equality of two floating-point representations. -/
def fpEqB (x y : Nat × Int) : Bool := !fpLtB x y && !fpLtB y x

/-- Truncation toward zero of a nonnegative floating-point value (the C++
`static_cast<long>` on a nonnegative `float`). -/
def fpTrunc (x : Nat × Int) : Nat :=
  if 0 ≤ x.2 then x.1 * 2 ^ x.2.toNat else x.1 / 2 ^ (-x.2).toNat

/-- Single-precision (`float`) rounding of `a / b`. -/
def f32 (a b : Nat) : Nat × Int := roundFP 23 (-126) a b

/-- Double-precision rounding of `a / b`. -/
def f64 (a b : Nat) : Nat × Int := roundFP 52 (-1022) a b

/-! ## Program constants (`order_book.hpp`) -/

def SCALE_FACTOR : Nat := 1000

def COLUMN_WIDTH : Nat := 15

/-- Largest value of the 64-bit C++ `long` used by `stol`. -/
def LONG_MAX : Nat := 2 ^ 63 - 1

/-- The C++ expression `1.0 / SCALE_FACTOR`: the double nearest `0.001`. -/
def tickDouble : Nat × Int := f64 1 SCALE_FACTOR

/-! ## Token classification: the validator's regular expressions -/

def isDigitCh (c : Char) : Bool := 48 ≤ c.toNat && c.toNat ≤ 57

def digitVal (c : Char) : Nat := c.toNat - 48

def digitsToNatAux : Nat → List Char → Nat
  | n, [] => n
  | n, c :: cs => digitsToNatAux (10 * n + digitVal c) cs

def digitsToNat (l : List Char) : Nat := digitsToNatAux 0 l

/-- The quantity pattern `^[1-9][0-9]*$`. -/
def quantity_regex (s : String) : Bool :=
  match s.data with
  | [] => false
  | c :: cs => (49 ≤ c.toNat && c.toNat ≤ 57) && cs.all isDigitCh

/-- The price pattern `^[0-9]*\.?[0-9]+$`. -/
def price_regex (s : String) : Bool :=
  let l := s.data
  let rest := l.dropWhile isDigitCh
  match rest with
  | [] => !l.isEmpty
  | c :: frac => c == '.' && !frac.isEmpty && frac.all isDigitCh

/-- Exact value of a price token as a fraction `(numerator, denominator)`. -/
def priceTokenNumDen (s : String) : Nat × Nat :=
  let l := s.data
  let pre := l.takeWhile isDigitCh
  let rest := l.dropWhile isDigitCh
  match rest with
  | [] => (digitsToNat pre, 1)
  | _ :: frac => (digitsToNat pre * 10 ^ frac.length + digitsToNat frac, 10 ^ frac.length)

/-- The C++ `stof` on a token matching the price pattern: correctly rounded
`float` conversion; `none` models the `std::out_of_range` exception thrown when
the value overflows the `float` range or underflows to the subnormal range
(`errno == ERANGE`). -/
def stofVal (a b : Nat) : Option (Nat × Int) :=
  if a = 0 then some (0, 0)
  else
    let f := f32 a b
    if fpLtB f (1, -126) then none
    else if fpLtB f (1, 128) then some f
    else none

def stofPrice (s : String) : Option (Nat × Int) :=
  stofVal (priceTokenNumDen s).1 (priceTokenNumDen s).2

/-- The C++ `stol` on a token matching the quantity pattern (all digits):
`none` models the `std::out_of_range` exception on overflow of `long`. -/
def stolQty (s : String) : Option Nat :=
  let n := digitsToNat s.data
  if n ≤ LONG_MAX then some n else none

/-! ## Input validation (`validate_inputs`) -/

inductive ValidationResult where
  | VALID
  | INVALID_SIDE
  | INVALID_QUANTITY
  | INVALID_PRICE
deriving DecidableEq, Repr

/-- `validate_inputs(char side, string quantity, string price)`.  The `Except`
error value models the `std::out_of_range` exception escaping from the `stof`
call on an in-pattern but out-of-float-range price token. -/
def validate_inputs (side : Char) (quantity price : String) : Except Unit ValidationResult :=
  if side ≠ 'B' ∧ side ≠ 'S' then .ok .INVALID_SIDE
  else if ¬ quantity_regex quantity then .ok .INVALID_QUANTITY
  else if ¬ price_regex price then .ok .INVALID_PRICE
  else
    match stofPrice price with
    | none => .error ()
    | some f => if fpLtB f tickDouble then .ok .INVALID_PRICE else .ok .VALID

/-- The scaled price stored by `add_order`:
`static_cast<long>(stof(price_str) * SCALE_FACTOR)`, i.e. the `float` product
(correctly rounded) truncated toward zero. -/
def scaledOfF32 (f : Nat × Int) : Nat :=
  let p :=
    if 0 ≤ f.2 then f32 (f.1 * SCALE_FACTOR * 2 ^ f.2.toNat) 1
    else f32 (f.1 * SCALE_FACTOR) (2 ^ (-f.2).toNat)
  fpTrunc p

/-- The full price pipeline of the code: token → stored scaled price
(`none` when `stof` would throw). -/
def codeScaledPrice (s : String) : Option Nat :=
  (stofPrice s).map scaledOfF32

/-- The specified price pipeline: the token's exact decimal value multiplied by
`SCALE_FACTOR` and truncated toward zero. -/
def exactScaledPrice (s : String) : Nat :=
  (priceTokenNumDen s).1 * SCALE_FACTOR / (priceTokenNumDen s).2

end MarketEngine

namespace MarketEngine

/-! ## The order book (`order_book.hpp` / `order_book.cpp`)

`std::map<long, deque<Order>>` and `std::map<long, long long>` are embedded as
association lists sorted strictly ascending by key; `rbegin()` is the last
element and `begin()` the first.
-/

structure Order where
  side : Char
  quantity : Int
  price : Int
  timestamp : Int
deriving DecidableEq, Repr

structure OrderBook where
  buy_orders : List (Int × List Order)
  sell_orders : List (Int × List Order)
  total_buy_orders_at_price : List (Int × Int)
  total_sell_orders_at_price : List (Int × Int)
deriving DecidableEq, Repr

def emptyBook : OrderBook := ⟨[], [], [], []⟩

/-- `map[k] = f(current or default)`: insert-or-update keeping keys sorted,
the semantics of `operator[]` followed by a modification. -/
def mapUpd {α : Type} (k : Int) (d : α) (f : α → α) : List (Int × α) → List (Int × α)
  | [] => [(k, f d)]
  | (k', v) :: rest =>
    if k < k' then (k, f d) :: (k', v) :: rest
    else if k = k' then (k', f v) :: rest
    else (k', v) :: mapUpd k d f rest

/-- `map.find(k)` as an option. -/
def mapLookup {α : Type} (k : Int) : List (Int × α) → Option α
  | [] => none
  | (k', v) :: rest => if k = k' then some v else mapLookup k rest

/-- `map.erase(k)`. -/
def mapErase {α : Type} (k : Int) (l : List (Int × α)) : List (Int × α) :=
  l.filter (fun kv => kv.1 != k)

/-- Modify the value of `begin()` (the least key), leaving an empty map alone. -/
def modifyHeadLevel (g : List Order → List Order) : List (Int × List Order) → List (Int × List Order)
  | [] => []
  | (p, os) :: rest => (p, g os) :: rest

/-- Modify the value of `rbegin()` (the greatest key), leaving an empty map alone. -/
def modifyLastLevel (g : List Order → List Order) : List (Int × List Order) → List (Int × List Order)
  | [] => []
  | [(p, os)] => [(p, g os)]
  | x :: y :: rest => x :: modifyLastLevel g (y :: rest)

/-- Decrement the front order's remaining quantity (`front().quantity -= q`). -/
def decFront (q : Int) : List Order → List Order
  | [] => []
  | o :: rest => { o with quantity := o.quantity - q } :: rest

/-- Result of `OrderBook::add_order`: `rejected` is the `return false` path with
its printed error, `exn` an escaping `std::out_of_range`, `ok` the updated book
(`return true`). -/
inductive AddResult where
  | rejected (err : ValidationResult)
  | exn
  | ok (bk : OrderBook)
deriving DecidableEq, Repr

/-- `OrderBook::add_order(side, quantity_str, price_str, timestamp)`. -/
def add_order (bk : OrderBook) (side : Char) (quantity_str price_str : String)
    (timestamp : Int) : AddResult :=
  match validate_inputs side quantity_str price_str with
  | .error _ => .exn
  | .ok r =>
    if r ≠ .VALID then .rejected r
    else
      match stofPrice price_str with
      | none => .exn
      | some f =>
        match stolQty quantity_str with
        | none => .exn
        | some qn =>
          if side = 'B' then
            .ok { bk with
              buy_orders := mapUpd (scaledOfF32 f)
                [] (· ++ [⟨side, (qn : Int), (scaledOfF32 f : Int), timestamp⟩]) bk.buy_orders,
              total_buy_orders_at_price :=
                mapUpd (scaledOfF32 f) 0 (· + (qn : Int)) bk.total_buy_orders_at_price }
          else
            .ok { bk with
              sell_orders := mapUpd (scaledOfF32 f)
                [] (· ++ [⟨side, (qn : Int), (scaledOfF32 f : Int), timestamp⟩]) bk.sell_orders,
              total_sell_orders_at_price :=
                mapUpd (scaledOfF32 f) 0 (· + (qn : Int)) bk.total_sell_orders_at_price }

/-- Buy-side bookkeeping of one loop iteration (lines 100, 103, 106–113 of
`order_book.cpp`): decrement the front of the `rbegin()` level and the
aggregate at `best_buy_order.price`; if the best order is exhausted pop it,
and if the aggregate at that price reached zero erase the level from both maps. -/
def buySideUpdate (bo : Order) (q : Int) (om : List (Int × List Order))
    (tm : List (Int × Int)) : List (Int × List Order) × List (Int × Int) :=
  let buys1 := modifyLastLevel (decFront q) om
  let tb1 := mapUpd bo.price 0 (· - q) tm
  if bo.quantity - q = 0 then
    let buys2 := modifyLastLevel List.tail buys1
    if mapLookup bo.price tb1 = some 0 then
      (mapErase bo.price buys2, mapErase bo.price tb1)
    else (buys2, tb1)
  else (buys1, tb1)

/-- Sell-side bookkeeping of one loop iteration (lines 101, 104, 114–121 of
`order_book.cpp`); mirror image of `buySideUpdate` acting on the `begin()`
level. -/
def sellSideUpdate (so : Order) (q : Int) (om : List (Int × List Order))
    (tm : List (Int × Int)) : List (Int × List Order) × List (Int × Int) :=
  let sells1 := modifyHeadLevel (decFront q) om
  let ts1 := mapUpd so.price 0 (· - q) tm
  if so.quantity - q = 0 then
    let sells2 := modifyHeadLevel List.tail sells1
    if mapLookup so.price ts1 = some 0 then
      (mapErase so.price sells2, mapErase so.price ts1)
    else (sells2, ts1)
  else (sells1, ts1)

/-- One iteration of the matching loop in `execute_and_print_trades`:
`none` when the loop exits (an empty side, or best bid under best ask, or — a
state unreachable from well-formed books — a best level with an empty queue,
where the C++ `front()` would be undefined); otherwise the emitted trade
`(trade_quantity, trade_price)` and the updated book. -/
def matchStep (bk : OrderBook) : Option ((Int × Int) × OrderBook) :=
  match bk.buy_orders.getLast?, bk.sell_orders.head? with
  | some (_, bq), some (_, sq) =>
    match bq.head?, sq.head? with
    | some best_buy_order, some best_sell_order =>
      if best_buy_order.price < best_sell_order.price then none
      else
        let trade_quantity := min best_buy_order.quantity best_sell_order.quantity
        let trade_price :=
          if best_buy_order.timestamp > best_sell_order.timestamp
          then best_sell_order.price else best_buy_order.price
        let pb := buySideUpdate best_buy_order trade_quantity
                    bk.buy_orders bk.total_buy_orders_at_price
        let ps := sellSideUpdate best_sell_order trade_quantity
                    bk.sell_orders bk.total_sell_orders_at_price
        some ((trade_quantity, trade_price),
          { buy_orders := pb.1, sell_orders := ps.1,
            total_buy_orders_at_price := pb.2, total_sell_orders_at_price := ps.2 })
    | _, _ => none
  | _, _ => none

/-- Number of resting orders in a side's ledger. -/
def levelCount (l : List (Int × List Order)) : Nat := (l.map (fun pl => pl.2.length)).sum

def orderCount (bk : OrderBook) : Nat := levelCount bk.buy_orders + levelCount bk.sell_orders

/-- The matching loop with explicit fuel; every iteration removes at least one
resting order, so `orderCount bk + 1` fuel always runs it to its fixpoint. -/
def executeLoop : Nat → OrderBook → List (Int × Int) × OrderBook
  | 0, bk => ([], bk)
  | fuel + 1, bk =>
    match matchStep bk with
    | none => ([], bk)
    | some (t, bk') =>
      let r := executeLoop fuel bk'
      (t :: r.1, r.2)

/-- `OrderBook::execute_and_print_trades`: the emitted trades in execution order
and the final book. -/
def execute_and_print_trades (bk : OrderBook) : List (Int × Int) × OrderBook :=
  executeLoop (orderCount bk + 1) bk

/-- Output of one iteration of `main`'s loop. -/
structure StepOutput where
  timestamp : Int
  errors : List ValidationResult
  trades : List (Int × Int)
  book : OrderBook
deriving DecidableEq, Repr

/-- One iteration of `main`'s read loop: pre-increment the sequence counter,
attempt `add_order`, and on success run `execute_and_print_trades`.  The
`Except` error models an exception escaping `main`. -/
def processSubmission (bk : OrderBook) (timestamp : Int) (side : Char)
    (quantity price : String) : Except Unit StepOutput :=
  let ts := timestamp + 1
  match add_order bk side quantity price ts with
  | .exn => .error ()
  | .rejected e => .ok ⟨ts, [e], [], bk⟩
  | .ok bk1 =>
    let r := execute_and_print_trades bk1
    .ok ⟨ts, [], r.1, r.2⟩

end MarketEngine

namespace MarketEngine

/-! ## Price rendering (`execute_and_print_trades` line 94, `print_order_book` line 140)

The trade printer streams `trade_price * 1.0f / SCALE_FACTOR` through
`operator<<` with default formatting (`printf %g`, 6 significant digits,
trailing zeros removed); the book printer uses `std::format("{}", ...)`
(shortest round-tripping decimal).  Both are modelled on the exact binary32
value of the quotient.
-/

/-- Floor of the base-10 logarithm of `n ≥ 1` (number of digits minus one),
with explicit fuel; fuel `n` always suffices. -/
def ilog10Aux : Nat → Nat → Nat
  | 0, _ => 0
  | f + 1, n => if n < 10 then 0 else ilog10Aux f (n / 10) + 1

/-- Least `t ≥ 1` with `a * 10 ^ t ≥ b` (for `0 < a < b`), with fuel. -/
def ilog10NegAux : Nat → Nat → Nat → Nat
  | 0, _, _ => 1
  | f + 1, a, b => if b ≤ a * 10 then 1 else ilog10NegAux f (a * 10) b + 1

/-- Floor of the base-10 logarithm of the positive rational `a / b`. -/
def decExp (a b : Nat) : Int :=
  if b ≤ a then (ilog10Aux (a / b) (a / b) : Int)
  else -(ilog10NegAux b a b : Int)

/-- Decimal digits of a natural number, most significant first. -/
def natDigitsAux : Nat → Nat → List Char
  | 0, _ => []
  | f + 1, n =>
    if n < 10 then [Char.ofNat (48 + n)]
    else natDigitsAux f (n / 10) ++ [Char.ofNat (48 + n % 10)]

def natToDigits (n : Nat) : List Char := natDigitsAux (n + 1) n

/-- Round the positive rational `a / b` to `p ≥ 1` significant decimal digits
(nearest, ties to even): the result `(n, X)` satisfies
`n * 10 ^ (X - p + 1) ≈ a / b` with `10 ^ (p-1) ≤ n < 10 ^ p`. -/
def roundSig (p : Nat) (a b : Nat) : Nat × Int :=
  let X := decExp a b
  let s : Int := (p : Int) - 1 - X
  let n := if 0 ≤ s then rndDiv (a * 10 ^ s.toNat) b else rndDiv a (b * 10 ^ (-s).toNat)
  if n = 10 ^ p then (10 ^ (p - 1), X + 1) else (n, X)

def stripTrailingZeros (l : List Char) : List Char :=
  (l.reverse.dropWhile (fun c => c == '0')).reverse

/-- Fixed-notation rendering of the `p`-digit decimal `n × 10 ^ (X - p + 1)`
with trailing fractional zeros (and a bare point) suppressed. -/
def fixedRender (p : Nat) (n : Nat) (X : Int) : List Char :=
  let ds := natToDigits n
  if 0 ≤ X then
    let ip := (X + 1).toNat
    if p ≤ ip then ds ++ List.replicate (ip - p) '0'
    else
      let intPart := ds.take ip
      let frac := stripTrailingZeros (ds.drop ip)
      if frac.isEmpty then intPart else intPart ++ '.' :: frac
  else
    let frac := stripTrailingZeros (List.replicate (-X - 1).toNat '0' ++ ds)
    '0' :: '.' :: frac

/-- Scientific-notation rendering `d.ddd…e±XX` with trailing zeros suppressed. -/
def sciRender (n : Nat) (X : Int) : List Char :=
  let ds := natToDigits n
  let mant :=
    match ds with
    | [] => ['0']
    | d :: rest =>
      let rest' := stripTrailingZeros rest
      if rest'.isEmpty then [d] else d :: '.' :: rest'
  let ea := (if 0 ≤ X then X else -X).toNat
  let eds := natToDigits ea
  let eds2 := if eds.length < 2 then '0' :: eds else eds
  mant ++ 'e' :: (if 0 ≤ X then '+' else '-') :: eds2

/-- The `printf %g` / C++ default-ostream rendering of a nonnegative binary
floating-point value with precision `p` significant digits. -/
def gRender (p : Nat) (v : Nat × Int) : String :=
  if v.1 = 0 then "0"
  else
    let ab := if 0 ≤ v.2 then (v.1 * 2 ^ v.2.toNat, 1) else (v.1, 2 ^ (-v.2).toNat)
    let nX := roundSig p ab.1 ab.2
    let cs :=
      if nX.2 < -4 ∨ (p : Int) ≤ nX.2 then sciRender nX.1 nX.2
      else fixedRender p nX.1 nX.2
    ⟨cs⟩

/-- Does the `p`-digit decimal `n × 10 ^ (X - p + 1)` convert back (`strtof`)
to the float value `v`? -/
def roundTripsB (p : Nat) (n : Nat) (X : Int) (v : Nat × Int) : Bool :=
  let s : Int := X - (p : Int) + 1
  let f := if 0 ≤ s then f32 (n * 10 ^ s.toNat) 1 else f32 n (10 ^ (-s).toNat)
  fpEqB f v

/-- Minimal number of significant digits (up to 9) whose rounded decimal
round-trips to the float value `v`. -/
def shortestSigAux : Nat → Nat → (Nat × Int) → Nat
  | 0, _, _ => 9
  | f + 1, p, v =>
    let ab := if 0 ≤ v.2 then (v.1 * 2 ^ v.2.toNat, 1) else (v.1, 2 ^ (-v.2).toNat)
    let nX := roundSig p ab.1 ab.2
    if roundTripsB p nX.1 nX.2 v then p else shortestSigAux f (p + 1) v

/-- The `std::format("{}", x)` / `std::to_chars` shortest-round-trip rendering
of a nonnegative binary32 value: the minimal-digit decimal, written in fixed or
scientific notation, whichever is shorter (fixed preferred on a tie). -/
def shortestRender (v : Nat × Int) : String :=
  if v.1 = 0 then "0"
  else
    let p := shortestSigAux 9 1 v
    let ab := if 0 ≤ v.2 then (v.1 * 2 ^ v.2.toNat, 1) else (v.1, 2 ^ (-v.2).toNat)
    let nX := roundSig p ab.1 ab.2
    let fx := fixedRender p nX.1 nX.2
    let sc := sciRender nX.1 nX.2
    if fx.length ≤ sc.length then ⟨fx⟩ else ⟨sc⟩

/-- The exact binary32 value of `scaled * 1.0f / SCALE_FACTOR`: the `long` is
converted to `float` (rounded), then divided by `1000.0f` (rounded). -/
def displayedPriceF32 (scaled : Nat) : Nat × Int :=
  let f := f32 scaled 1
  if 0 ≤ f.2 then f32 (f.1 * 2 ^ f.2.toNat) SCALE_FACTOR
  else f32 f.1 (SCALE_FACTOR * 2 ^ (-f.2).toNat)

/-- The trade line's price text: `cout << (trade_price * 1.0f / SCALE_FACTOR)`. -/
def renderTradePrice (scaled : Nat) : String :=
  gRender 6 (displayedPriceF32 scaled)

/-- The book cell's price text: `format("{}", price * 1.0f / SCALE_FACTOR)`. -/
def renderBookPrice (scaled : Nat) : String :=
  shortestRender (displayedPriceF32 scaled)

/-- Number of digits printed after the decimal point. -/
def decimalPlaces (s : String) : Nat :=
  match s.data.dropWhile (fun c => c != '.') with
  | [] => 0
  | _ :: frac => frac.length

end MarketEngine

namespace MarketEngine

/-! ## Well-formedness of the book

`sideWF` collects the representation invariants of one side: the `std::map`
keys are strictly sorted, the order-queue map and the aggregate map hold
exactly the same keys, every present level has a non-empty queue of strictly
positive orders resting at that level's price, and the aggregate equals the sum
of the queue's remaining quantities. -/

def keysOf {α : Type} (l : List (Int × α)) : List Int := l.map Prod.fst

def sumQty (os : List Order) : Int := (os.map Order.quantity).sum

def levelSum (l : List (Int × List Order)) : Int := (l.map (fun pl => sumQty pl.2)).sum

/-- Total remaining quantity over all resting orders of the book. -/
def bookRemaining (bk : OrderBook) : Int := levelSum bk.buy_orders + levelSum bk.sell_orders

def sideWF (om : List (Int × List Order)) (tm : List (Int × Int)) : Prop :=
  List.Pairwise (· < ·) (keysOf om) ∧
  keysOf tm = keysOf om ∧
  ∀ pl ∈ om, pl.2 ≠ [] ∧
    (∀ o ∈ pl.2, 0 < o.quantity ∧ o.price = pl.1) ∧
    mapLookup pl.1 tm = some (sumQty pl.2)

def WF (bk : OrderBook) : Prop :=
  sideWF bk.buy_orders bk.total_buy_orders_at_price ∧
  sideWF bk.sell_orders bk.total_sell_orders_at_price

instance {om tm} : Decidable (sideWF om tm) := by unfold sideWF; infer_instance

instance {bk} : Decidable (WF bk) := by unfold WF; infer_instance

/-! ### Association-list lemmas -/

@[simp] theorem keysOf_nil {α : Type} : keysOf (α := α) [] = [] := rfl

@[simp] theorem keysOf_cons {α : Type} (x : Int × α) (l : List (Int × α)) :
    keysOf (x :: l) = x.1 :: keysOf l := rfl

@[simp] theorem keysOf_append {α : Type} (l₁ l₂ : List (Int × α)) :
    keysOf (l₁ ++ l₂) = keysOf l₁ ++ keysOf l₂ := List.map_append _ _ _

theorem mapLookup_eq_none {α : Type} {k : Int} {l : List (Int × α)} :
    mapLookup k l = none ↔ k ∉ keysOf l := by
  induction l with
  | nil => simp [mapLookup]
  | cons x rest ih =>
    obtain ⟨k', v⟩ := x
    by_cases h : k = k' <;> simp [mapLookup, h, ih]

theorem mapLookup_mem {α : Type} {k : Int} {v : α} {l : List (Int × α)}
    (h : mapLookup k l = some v) : (k, v) ∈ l := by
  induction l with
  | nil => simp [mapLookup] at h
  | cons x rest ih =>
    obtain ⟨k', v'⟩ := x
    by_cases hk : k = k'
    · subst hk
      simp [mapLookup] at h
      subst h; exact List.mem_cons_self _ _
    · simp [mapLookup, hk] at h
      exact List.mem_cons_of_mem _ (ih h)

theorem mapLookup_cons_ne {α : Type} {k k' : Int} {v : α} {l : List (Int × α)}
    (h : k ≠ k') : mapLookup k ((k', v) :: l) = mapLookup k l := by
  simp [mapLookup, h]

theorem mapLookup_cons_self {α : Type} {k : Int} {v : α} {l : List (Int × α)} :
    mapLookup k ((k, v) :: l) = some v := by
  simp [mapLookup]

theorem mapLookup_append_ne {α : Type} {k k' : Int} {v : α} {l : List (Int × α)}
    (h : k ≠ k') : mapLookup k (l ++ [(k', v)]) = mapLookup k l := by
  induction l with
  | nil => simp [mapLookup, h]
  | cons x rest ih =>
    obtain ⟨k₀, v₀⟩ := x
    by_cases hk : k = k₀ <;> simp [mapLookup, hk, ih]

theorem mapLookup_append_last {α : Type} {k : Int} {v : α} {l : List (Int × α)}
    (h : ∀ x ∈ l, x.1 ≠ k) : mapLookup k (l ++ [(k, v)]) = some v := by
  induction l with
  | nil => simp [mapLookup]
  | cons x rest ih =>
    obtain ⟨k₀, v₀⟩ := x
    have hk : k ≠ k₀ := fun he => (h (k₀, v₀) (List.mem_cons_self _ _)) (by simp [he])
    rw [List.cons_append, mapLookup_cons_ne hk]
    exact ih fun y hy => h y (List.mem_cons_of_mem _ hy)

theorem mapUpd_lookup_ne {α : Type} {k k' : Int} {d : α} {f : α → α} {l : List (Int × α)}
    (h : k' ≠ k) : mapLookup k' (mapUpd k d f l) = mapLookup k' l := by
  induction l with
  | nil => simp [mapUpd, mapLookup, h]
  | cons x rest ih =>
    obtain ⟨k₀, v₀⟩ := x
    by_cases h1 : k < k₀
    · simp [mapUpd, h1, mapLookup_cons_ne h]
    · by_cases h2 : k = k₀
      · subst h2
        simp [mapUpd, h1, mapLookup_cons_ne h]
      · by_cases h3 : k' = k₀ <;> simp [mapUpd, h1, h2, mapLookup, h3, ih]


theorem mapUpd_cons_lt {α : Type} {k k' : Int} {d : α} {f : α → α} {v : α}
    {l : List (Int × α)} (h : k < k') :
    mapUpd k d f ((k', v) :: l) = (k, f d) :: (k', v) :: l := by
  simp [mapUpd, h]

theorem mapUpd_cons_eq {α : Type} {k : Int} {d : α} {f : α → α} {v : α}
    {l : List (Int × α)} :
    mapUpd k d f ((k, v) :: l) = (k, f v) :: l := by
  simp [mapUpd, lt_irrefl]

theorem mapUpd_cons_gt {α : Type} {k k' : Int} {d : α} {f : α → α} {v : α}
    {l : List (Int × α)} (h : k' < k) :
    mapUpd k d f ((k', v) :: l) = (k', v) :: mapUpd k d f l := by
  have h1 : ¬ k < k' := by omega
  have h2 : k ≠ k' := by omega
  simp [mapUpd, h1, h2]

theorem mem_keysOf {α : Type} {x : Int} {l : List (Int × α)} :
    x ∈ keysOf l ↔ ∃ v, (x, v) ∈ l := by
  constructor
  · intro h
    rcases List.mem_map.1 h with ⟨⟨a, b⟩, hmem, he⟩
    have ha : a = x := he
    exact ⟨b, ha ▸ hmem⟩
  · rintro ⟨v, hv⟩
    exact List.mem_map_of_mem _ hv

theorem keysOf_mapUpd_congr {α β : Type} {k : Int} {d₁ : α} {d₂ : β}
    {f₁ : α → α} {f₂ : β → β} {l₁ : List (Int × α)} {l₂ : List (Int × β)}
    (h : keysOf l₁ = keysOf l₂) :
    keysOf (mapUpd k d₁ f₁ l₁) = keysOf (mapUpd k d₂ f₂ l₂) := by
  induction l₁ generalizing l₂ with
  | nil =>
    cases l₂ with
    | nil => rfl
    | cons y t => simp [keysOf] at h
  | cons x rest ih =>
    cases l₂ with
    | nil => simp [keysOf] at h
    | cons y t =>
      obtain ⟨k₁, v₁⟩ := x
      obtain ⟨k₂, v₂⟩ := y
      simp only [keysOf_cons, List.cons.injEq] at h
      obtain ⟨hk, ht⟩ := h
      have hk' : k₁ = k₂ := hk
      subst hk'
      rcases lt_trichotomy k k₁ with h1 | h1 | h1
      · rw [mapUpd_cons_lt h1, mapUpd_cons_lt h1, keysOf_cons, keysOf_cons,
          keysOf_cons, keysOf_cons, ht]
      · subst h1
        rw [mapUpd_cons_eq, mapUpd_cons_eq, keysOf_cons, keysOf_cons, ht]
      · rw [mapUpd_cons_gt h1, mapUpd_cons_gt h1, keysOf_cons, keysOf_cons, ih ht]

theorem keysOf_mapUpd_sub {α : Type} {k : Int} {d : α} {f : α → α} {l : List (Int × α)} :
    ∀ x ∈ keysOf (mapUpd k d f l), x = k ∨ x ∈ keysOf l := by
  induction l with
  | nil =>
    intro x hx
    left
    simpa [mapUpd, keysOf] using hx
  | cons y rest ih =>
    obtain ⟨k₀, v₀⟩ := y
    intro x hx
    rcases lt_trichotomy k k₀ with h1 | h1 | h1
    · rw [mapUpd_cons_lt h1, keysOf_cons, keysOf_cons] at hx
      rcases List.mem_cons.1 hx with h | h
      · exact Or.inl h
      · exact Or.inr h
    · subst h1
      rw [mapUpd_cons_eq, keysOf_cons] at hx
      rcases List.mem_cons.1 hx with h | h
      · exact Or.inl h
      · exact Or.inr (List.mem_cons_of_mem _ h)
    · rw [mapUpd_cons_gt h1, keysOf_cons] at hx
      rcases List.mem_cons.1 hx with h | h
      · refine Or.inr ?_
        rw [keysOf_cons, h]
        exact List.mem_cons_self _ _
      · rcases ih x h with h' | h'
        · exact Or.inl h'
        · exact Or.inr (by rw [keysOf_cons]; exact List.mem_cons_of_mem _ h')

theorem pairwise_mapUpd {α : Type} {k : Int} {d : α} {f : α → α} {l : List (Int × α)}
    (hs : List.Pairwise (· < ·) (keysOf l)) :
    List.Pairwise (· < ·) (keysOf (mapUpd k d f l)) := by
  induction l with
  | nil => simp [mapUpd, keysOf]
  | cons y rest ih =>
    obtain ⟨k₀, v₀⟩ := y
    rw [keysOf_cons, List.pairwise_cons] at hs
    obtain ⟨hall, hrest⟩ := hs
    rcases lt_trichotomy k k₀ with h1 | h1 | h1
    · rw [mapUpd_cons_lt h1, keysOf_cons, keysOf_cons, List.pairwise_cons]
      constructor
      · intro x hx
        rcases List.mem_cons.1 hx with h | h
        · omega
        · exact lt_trans h1 (hall x h)
      · rw [List.pairwise_cons]
        exact ⟨hall, hrest⟩
    · subst h1
      rw [mapUpd_cons_eq, keysOf_cons, List.pairwise_cons]
      exact ⟨hall, hrest⟩
    · rw [mapUpd_cons_gt h1, keysOf_cons, List.pairwise_cons]
      constructor
      · intro x hx
        rcases keysOf_mapUpd_sub x hx with h | h
        · omega
        · exact hall x h
      · exact ih hrest

theorem mem_mapUpd_sorted {α : Type} {k : Int} {d : α} {f : α → α} {l : List (Int × α)}
    (hs : List.Pairwise (· < ·) (keysOf l)) :
    ∀ x ∈ mapUpd k d f l, (x ∈ l ∧ x.1 ≠ k) ∨ x = (k, f ((mapLookup k l).getD d)) := by
  induction l with
  | nil =>
    intro x hx
    right
    simp only [mapUpd] at hx
    rcases List.mem_singleton.1 hx with h
    simp [h, mapLookup]
  | cons y rest ih =>
    obtain ⟨k₀, v₀⟩ := y
    rw [keysOf_cons, List.pairwise_cons] at hs
    obtain ⟨hall, hrest⟩ := hs
    intro x hx
    rcases lt_trichotomy k k₀ with h1 | h1 | h1
    · have hnot : k ∉ keysOf ((k₀, v₀) :: rest) := by
        rw [keysOf_cons]
        intro hmem
        rcases List.mem_cons.1 hmem with h | h
        · omega
        · have := hall k h; omega
      have hlk : mapLookup k ((k₀, v₀) :: rest) = none := mapLookup_eq_none.2 hnot
      rw [mapUpd_cons_lt h1] at hx
      rcases List.mem_cons.1 hx with h | h
      · right; simp [h, hlk]
      · left
        refine ⟨h, fun he => ?_⟩
        have hxk : x.1 ∈ keysOf ((k₀, v₀) :: rest) := List.mem_map_of_mem _ h
        rw [he] at hxk
        exact hnot hxk
    · subst h1
      rw [mapUpd_cons_eq] at hx
      rcases List.mem_cons.1 hx with h | h
      · right; simp [h, mapLookup_cons_self]
      · left
        refine ⟨List.mem_cons_of_mem _ h, fun he => ?_⟩
        have hxk : x.1 ∈ keysOf rest := List.mem_map_of_mem _ h
        rw [he] at hxk
        have hxk' : k ∈ keysOf rest := hxk
        have := hall k hxk'
        omega
    · rw [mapUpd_cons_gt h1] at hx
      rcases List.mem_cons.1 hx with h | h
      · left
        constructor
        · simp [h]
        · rw [h]; intro he; simp at he; omega
      · rcases ih hrest x h with ⟨hmem, hne⟩ | heq
        · exact Or.inl ⟨List.mem_cons_of_mem _ hmem, hne⟩
        · right
          have hne : k ≠ k₀ := by omega
          rwa [mapLookup_cons_ne hne]

theorem mapLookup_mapUpd_self {α : Type} {k : Int} {d : α} {f : α → α} {l : List (Int × α)}
    (hs : List.Pairwise (· < ·) (keysOf l)) :
    mapLookup k (mapUpd k d f l) = some (f ((mapLookup k l).getD d)) := by
  induction l with
  | nil => simp [mapUpd, mapLookup]
  | cons y rest ih =>
    obtain ⟨k₀, v₀⟩ := y
    rw [keysOf_cons, List.pairwise_cons] at hs
    obtain ⟨hall, hrest⟩ := hs
    rcases lt_trichotomy k k₀ with h1 | h1 | h1
    · have hnot : k ∉ keysOf ((k₀, v₀) :: rest) := by
        rw [keysOf_cons]
        intro hmem
        rcases List.mem_cons.1 hmem with h | h
        · omega
        · have := hall k h; omega
      have hlk : mapLookup k ((k₀, v₀) :: rest) = none := mapLookup_eq_none.2 hnot
      rw [mapUpd_cons_lt h1, mapLookup_cons_self, hlk]
      rfl
    · subst h1
      rw [mapUpd_cons_eq, mapLookup_cons_self, mapLookup_cons_self]
      rfl
    · have hne : k ≠ k₀ := by omega
      rw [mapUpd_cons_gt h1, mapLookup_cons_ne hne, mapLookup_cons_ne hne, ih hrest]

theorem keysOf_mapErase {α : Type} {k : Int} {l : List (Int × α)} :
    keysOf (mapErase k l) = (keysOf l).filter (fun x => x != k) := by
  induction l with
  | nil => rfl
  | cons x rest ih =>
    obtain ⟨k₀, v₀⟩ := x
    by_cases h : k₀ = k
    · subst h
      simpa [mapErase, keysOf, List.filter_cons] using ih
    · have hb : (k₀ != k) = true := by simpa using h
      simpa [mapErase, keysOf, List.filter_cons, hb] using ih

theorem keysOf_mapErase_congr {α β : Type} {k : Int} {l₁ : List (Int × α)}
    {l₂ : List (Int × β)} (h : keysOf l₁ = keysOf l₂) :
    keysOf (mapErase k l₁) = keysOf (mapErase k l₂) := by
  rw [keysOf_mapErase, keysOf_mapErase, h]

theorem pairwise_mapErase {α : Type} {k : Int} {l : List (Int × α)}
    (hs : List.Pairwise (· < ·) (keysOf l)) :
    List.Pairwise (· < ·) (keysOf (mapErase k l)) := by
  rw [keysOf_mapErase]
  exact hs.filter _

theorem mapErase_eq_self {α : Type} {k : Int} {l : List (Int × α)}
    (h : ∀ x ∈ l, x.1 ≠ k) : mapErase k l = l := by
  rw [mapErase, List.filter_eq_self]
  intro x hx
  simpa using h x hx

theorem mapErase_cons_self {α : Type} {k : Int} {v : α} {l : List (Int × α)}
    (h : ∀ x ∈ l, x.1 ≠ k) : mapErase k ((k, v) :: l) = l := by
  simp only [mapErase, List.filter]
  have : ((k, v).1 != k) = false := by simp
  rw [this]
  exact mapErase_eq_self h

theorem mapErase_append_last {α : Type} {k : Int} {v : α} {l : List (Int × α)}
    (h : ∀ x ∈ l, x.1 ≠ k) : mapErase k (l ++ [(k, v)]) = l := by
  rw [mapErase, List.filter_append]
  have h1 : l.filter (fun kv => kv.1 != k) = l := mapErase_eq_self h
  have h2 : [((k : Int), v)].filter (fun kv => kv.1 != k) = [] := by simp
  rw [h1, h2, List.append_nil]

theorem exists_concat_of_getLast? {α : Type} {l : List α} {x : α}
    (h : l.getLast? = some x) : ∃ l', l = l' ++ [x] := by
  induction l with
  | nil => simp [List.getLast?] at h
  | cons a rest ih =>
    cases rest with
    | nil =>
      simp [List.getLast?] at h
      exact ⟨[], by simp [h]⟩
    | cons b t =>
      rw [List.getLast?_cons_cons] at h
      rcases ih h with ⟨l', hl'⟩
      exact ⟨a :: l', by simp [hl']⟩

theorem exists_head_of_head? {α : Type} {l : List α} {x : α}
    (h : l.head? = some x) : ∃ t, l = x :: t := by
  cases l with
  | nil => simp at h
  | cons a t =>
    simp at h
    exact ⟨t, by rw [h]⟩

theorem exists_keys_concat {α : Type} {tm : List (Int × α)} {K : List Int} {k : Int}
    (h : keysOf tm = K ++ [k]) : ∃ T v, tm = T ++ [(k, v)] ∧ keysOf T = K := by
  induction tm generalizing K with
  | nil =>
    exfalso
    have : ([] : List Int) = K ++ [k] := h
    exact absurd this.symm (by simp)
  | cons x rest ih =>
    obtain ⟨k₀, v₀⟩ := x
    cases K with
    | nil =>
      simp only [keysOf_cons, List.nil_append, List.cons.injEq] at h
      obtain ⟨hk, hrest⟩ := h
      have hk' : k₀ = k := hk
      have hrest' : rest = [] := by
        cases rest with
        | nil => rfl
        | cons y t => simp [keysOf] at hrest
      exact ⟨[], v₀, by simp [hk', hrest'], rfl⟩
    | cons k₁ K' =>
      simp only [keysOf_cons, List.cons_append, List.cons.injEq] at h
      obtain ⟨hk, hrest⟩ := h
      have hk' : k₀ = k₁ := hk
      rcases ih hrest with ⟨T, v, hT, hK⟩
      exact ⟨(k₀, v₀) :: T, v, by simp [hT], by rw [keysOf_cons, hK, hk']⟩

theorem mapUpd_append_last {α : Type} {k : Int} {d : α} {f : α → α} {v : α}
    {l : List (Int × α)} (h : ∀ x ∈ l, x.1 < k) :
    mapUpd k d f (l ++ [(k, v)]) = l ++ [(k, f v)] := by
  induction l with
  | nil => simp [mapUpd_cons_eq]
  | cons x rest ih =>
    obtain ⟨k₀, v₀⟩ := x
    have hk : k₀ < k := h (k₀, v₀) (List.mem_cons_self _ _)
    rw [List.cons_append, mapUpd_cons_gt hk, ih fun y hy => h y (List.mem_cons_of_mem _ hy)]
    rfl

theorem modifyLastLevel_append (g : List Order → List Order) (l : List (Int × List Order))
    (p : Int) (os : List Order) :
    modifyLastLevel g (l ++ [(p, os)]) = l ++ [(p, g os)] := by
  induction l with
  | nil => rfl
  | cons x rest ih =>
    cases hr : rest ++ [(p, os)] with
    | nil => exact absurd hr (by simp)
    | cons y t =>
      rw [List.cons_append, hr, modifyLastLevel, ← hr, ih]
      rfl

/-! ### Sums and counts -/

@[simp] theorem sumQty_nil : sumQty [] = 0 := rfl

@[simp] theorem sumQty_cons (o : Order) (os : List Order) :
    sumQty (o :: os) = o.quantity + sumQty os := by
  simp [sumQty]

@[simp] theorem sumQty_append (l₁ l₂ : List Order) :
    sumQty (l₁ ++ l₂) = sumQty l₁ + sumQty l₂ := by
  simp [sumQty]

theorem sumQty_pos {os : List Order} (hne : os ≠ [])
    (h : ∀ o ∈ os, 0 < o.quantity) : 0 < sumQty os := by
  induction os with
  | nil => exact absurd rfl hne
  | cons o rest ih =>
    rw [sumQty_cons]
    have ho : 0 < o.quantity := h o (List.mem_cons_self _ _)
    cases rest with
    | nil => simpa using ho
    | cons b t =>
      have : 0 < sumQty (b :: t) :=
        ih (by simp) fun x hx => h x (List.mem_cons_of_mem _ hx)
      omega

theorem eq_nil_of_sumQty_zero {os : List Order} (h : ∀ o ∈ os, 0 < o.quantity)
    (h0 : sumQty os = 0) : os = [] := by
  by_contra hne
  have := sumQty_pos hne h
  omega

@[simp] theorem levelSum_nil : levelSum [] = 0 := rfl

@[simp] theorem levelSum_cons (x : Int × List Order) (l : List (Int × List Order)) :
    levelSum (x :: l) = sumQty x.2 + levelSum l := by
  simp [levelSum]

@[simp] theorem levelSum_append (l₁ l₂ : List (Int × List Order)) :
    levelSum (l₁ ++ l₂) = levelSum l₁ + levelSum l₂ := by
  simp [levelSum]

@[simp] theorem levelCount_nil : levelCount [] = 0 := rfl

@[simp] theorem levelCount_cons (x : Int × List Order) (l : List (Int × List Order)) :
    levelCount (x :: l) = x.2.length + levelCount l := by
  simp [levelCount]

@[simp] theorem levelCount_append (l₁ l₂ : List (Int × List Order)) :
    levelCount (l₁ ++ l₂) = levelCount l₁ + levelCount l₂ := by
  simp [levelCount]

theorem levelCount_mapErase_le {k : Int} {l : List (Int × List Order)} :
    levelCount (mapErase k l) ≤ levelCount l := by
  induction l with
  | nil => simp [mapErase]
  | cons x rest ih =>
    obtain ⟨k₀, os⟩ := x
    rw [mapErase, List.filter_cons]
    have hih : levelCount (List.filter (fun kv => kv.1 != k) rest) ≤ levelCount rest := ih
    by_cases h : ((k₀, os).1 != k) = true
    · rw [if_pos h, levelCount_cons, levelCount_cons]
      omega
    · rw [if_neg h, levelCount_cons]
      omega

@[simp] theorem decFront_length (q : Int) (os : List Order) :
    (decFront q os).length = os.length := by
  cases os <;> simp [decFront]

theorem sumQty_decFront {q : Int} {o : Order} {os : List Order} :
    sumQty (decFront q (o :: os)) = sumQty (o :: os) - q := by
  simp [decFront]
  omega

/-! ### Effect of one matching iteration on each side -/

theorem sellSideUpdate_spec {ks : Int} {so : Order} {srest : List Order}
    {S : List (Int × List Order)} {tm : List (Int × Int)} {q : Int}
    (hwf : sideWF ((ks, so :: srest) :: S) tm)
    (hpr : so.price = ks) (hq : q ≤ so.quantity) :
    sideWF (sellSideUpdate so q ((ks, so :: srest) :: S) tm).1
           (sellSideUpdate so q ((ks, so :: srest) :: S) tm).2 ∧
    levelSum (sellSideUpdate so q ((ks, so :: srest) :: S) tm).1 =
      levelSum ((ks, so :: srest) :: S) - q := by
  obtain ⟨hpair, hkeys, hlev⟩ := hwf
  cases tm with
  | nil =>
    exfalso
    rw [keysOf_cons] at hkeys
    exact absurd hkeys (by simp [keysOf])
  | cons x T =>
    obtain ⟨kt, tv⟩ := x
    rw [keysOf_cons, keysOf_cons] at hkeys
    injection hkeys with hkt hkT
    have hkt' : ks = kt := (show kt = ks from hkt).symm
    subst hkt'
    obtain ⟨-, hords, hlook⟩ := hlev (ks, so :: srest) (List.mem_cons_self _ _)
    rw [show ((ks, so :: srest).1 : Int) = ks from rfl, mapLookup_cons_self] at hlook
    have htv : tv = sumQty (so :: srest) := Option.some.inj hlook
    rw [keysOf_cons, List.pairwise_cons] at hpair
    obtain ⟨hallS, hpairS⟩ := hpair
    have hSne : ∀ x ∈ S, x.1 ≠ ks := by
      intro x hx
      have : ks < x.1 := hallS x.1 (List.mem_map_of_mem _ hx)
      omega
    have hTne : ∀ x ∈ T, x.1 ≠ ks := by
      intro x hx
      have hxk : x.1 ∈ keysOf T := List.mem_map_of_mem _ hx
      rw [hkT] at hxk
      have := hallS x.1 hxk
      omega
    have hSlev : ∀ pl ∈ S, pl.2 ≠ [] ∧ (∀ o ∈ pl.2, 0 < o.quantity ∧ o.price = pl.1) ∧
        mapLookup pl.1 T = some (sumQty pl.2) := by
      intro pl hpl
      obtain ⟨h1, h2, h3⟩ := hlev pl (List.mem_cons_of_mem _ hpl)
      have hne : pl.1 ≠ ks := hSne pl hpl
      rw [mapLookup_cons_ne hne] at h3
      exact ⟨h1, h2, h3⟩
    have hqpos : 0 < so.quantity := (hords so (List.mem_cons_self _ _)).1
    by_cases hq0 : so.quantity - q = 0
    · -- the best ask is filled completely and popped
      have htvq : tv - q = sumQty srest := by
        rw [htv, sumQty_cons]; omega
      by_cases htv0 : tv - q = 0
      · -- its level is now empty and is erased from both maps
        have hsr : srest = [] := by
          refine eq_nil_of_sumQty_zero (fun o ho => (hords o (List.mem_cons_of_mem _ ho)).1) ?_
          omega
        have hcond : mapLookup ks ((ks, tv - q) :: T) = some 0 := by
          rw [mapLookup_cons_self, htv0]
        have hred : sellSideUpdate so q ((ks, so :: srest) :: S) ((ks, tv) :: T) = (S, T) := by
          unfold sellSideUpdate
          rw [hpr]
          simp only [modifyHeadLevel, decFront, mapUpd_cons_eq, if_pos hq0, List.tail_cons,
            if_pos hcond, mapErase_cons_self hSne, mapErase_cons_self hTne]
        rw [hred]
        refine ⟨⟨hpairS, hkT, hSlev⟩, ?_⟩
        subst hsr
        rw [levelSum_cons]
        simp only [sumQty_cons, sumQty_nil] at htv ⊢
        omega
      · -- the level keeps later orders
        have hcond : ¬ mapLookup ks ((ks, tv - q) :: T) = some 0 := by
          rw [mapLookup_cons_self]
          intro h
          exact htv0 (Option.some.inj h)
        have hred : sellSideUpdate so q ((ks, so :: srest) :: S) ((ks, tv) :: T) =
            ((ks, srest) :: S, (ks, tv - q) :: T) := by
          unfold sellSideUpdate
          rw [hpr]
          simp only [modifyHeadLevel, decFront, mapUpd_cons_eq, if_pos hq0, List.tail_cons,
            if_neg hcond]
        rw [hred]
        have hsrne : srest ≠ [] := by
          intro h
          rw [h] at htvq
          exact htv0 (by rw [htvq]; rfl)
        refine ⟨⟨?_, ?_, ?_⟩, ?_⟩
        · rw [keysOf_cons, List.pairwise_cons]
          exact ⟨hallS, hpairS⟩
        · rw [keysOf_cons, keysOf_cons, hkT]
        · intro pl hpl
          rcases List.mem_cons.1 hpl with h | h
          · subst h
            refine ⟨hsrne, fun o ho => hords o (List.mem_cons_of_mem _ ho), ?_⟩
            rw [show (((ks : Int), srest).1 : Int) = ks from rfl, mapLookup_cons_self, htvq]
          · obtain ⟨h1, h2, h3⟩ := hSlev pl h
            refine ⟨h1, h2, ?_⟩
            rw [mapLookup_cons_ne (hSne pl h), h3]
        · simp only [levelSum_cons, sumQty_cons]
          omega
    · -- partial fill of the best ask: only its quantity and the aggregate change
      have hred : sellSideUpdate so q ((ks, so :: srest) :: S) ((ks, tv) :: T) =
          (((ks, { so with quantity := so.quantity - q } :: srest) :: S), (ks, tv - q) :: T) := by
        unfold sellSideUpdate
        rw [hpr]
        simp only [modifyHeadLevel, decFront, mapUpd_cons_eq, if_neg hq0]
        rw [hpr]
      rw [hred]
      refine ⟨⟨?_, ?_, ?_⟩, ?_⟩
      · rw [keysOf_cons, List.pairwise_cons]
        exact ⟨hallS, hpairS⟩
      · rw [keysOf_cons, keysOf_cons, hkT]
      · intro pl hpl
        rcases List.mem_cons.1 hpl with h | h
        · subst h
          refine ⟨by simp, ?_, ?_⟩
          · intro o ho
            rcases List.mem_cons.1 ho with h' | h'
            · subst h'
              constructor
              · simp only []
                omega
              · simpa using hpr
            · exact hords o (List.mem_cons_of_mem _ h')
          · have hl : mapLookup (((ks : Int), { so with quantity := so.quantity - q } :: srest).1)
                ((ks, tv - q) :: T) = some (tv - q) := mapLookup_cons_self
            rw [hl]
            have htv' : tv = so.quantity + sumQty srest := by rw [htv, sumQty_cons]
            congr 1
            simp only [sumQty_cons]
            omega
        · obtain ⟨h1, h2, h3⟩ := hSlev pl h
          refine ⟨h1, h2, ?_⟩
          rw [mapLookup_cons_ne (hSne pl h), h3]
      · simp only [levelSum_cons, sumQty_cons]
        omega

theorem buySideUpdate_spec {kb : Int} {bo : Order} {brest : List Order}
    {L : List (Int × List Order)} {tm : List (Int × Int)} {q : Int}
    (hwf : sideWF (L ++ [(kb, bo :: brest)]) tm)
    (hpr : bo.price = kb) (hq : q ≤ bo.quantity) :
    sideWF (buySideUpdate bo q (L ++ [(kb, bo :: brest)]) tm).1
           (buySideUpdate bo q (L ++ [(kb, bo :: brest)]) tm).2 ∧
    levelSum (buySideUpdate bo q (L ++ [(kb, bo :: brest)]) tm).1 =
      levelSum (L ++ [(kb, bo :: brest)]) - q := by
  obtain ⟨hpair, hkeys, hlev⟩ := hwf
  rw [keysOf_append, keysOf_cons, keysOf_nil] at hkeys
  obtain ⟨T, tv, hT, hkT⟩ := exists_keys_concat hkeys
  subst hT
  rw [keysOf_append, keysOf_cons, keysOf_nil, List.pairwise_append] at hpair
  obtain ⟨hpairL, -, hallL⟩ := hpair
  have hallL' : ∀ a ∈ keysOf L, a < kb := by
    intro a ha
    exact hallL a ha kb (List.mem_singleton_self _)
  have hLne : ∀ x ∈ L, x.1 ≠ kb := by
    intro x hx
    have : x.1 < kb := hallL' x.1 (List.mem_map_of_mem _ hx)
    omega
  have hTlt : ∀ x ∈ T, x.1 < kb := by
    intro x hx
    have hxk : x.1 ∈ keysOf T := List.mem_map_of_mem _ hx
    rw [hkT] at hxk
    exact hallL' x.1 hxk
  have hTne : ∀ x ∈ T, x.1 ≠ kb := by
    intro x hx
    have := hTlt x hx
    omega
  obtain ⟨-, hords, hlook⟩ := hlev (kb, bo :: brest)
    (List.mem_append_right _ (List.mem_singleton_self _))
  rw [show (((kb : Int), bo :: brest).1 : Int) = kb from rfl,
    mapLookup_append_last hTne] at hlook
  have htv : tv = sumQty (bo :: brest) := Option.some.inj hlook
  have hLlev : ∀ pl ∈ L, pl.2 ≠ [] ∧ (∀ o ∈ pl.2, 0 < o.quantity ∧ o.price = pl.1) ∧
      mapLookup pl.1 T = some (sumQty pl.2) := by
    intro pl hpl
    obtain ⟨h1, h2, h3⟩ := hlev pl (List.mem_append_left _ hpl)
    rw [mapLookup_append_ne (hLne pl hpl)] at h3
    exact ⟨h1, h2, h3⟩
  by_cases hq0 : bo.quantity - q = 0
  · have htvq : tv - q = sumQty brest := by
      rw [htv, sumQty_cons]; omega
    by_cases htv0 : tv - q = 0
    · have hbr : brest = [] := by
        refine eq_nil_of_sumQty_zero (fun o ho => (hords o (List.mem_cons_of_mem _ ho)).1) ?_
        omega
      have hcond : mapLookup kb (T ++ [(kb, tv - q)]) = some 0 := by
        rw [mapLookup_append_last hTne, htv0]
      have hred : buySideUpdate bo q (L ++ [(kb, bo :: brest)]) (T ++ [(kb, tv)]) = (L, T) := by
        unfold buySideUpdate
        rw [hpr, modifyLastLevel_append, mapUpd_append_last hTlt]
        simp only [decFront, if_pos hq0]
        rw [modifyLastLevel_append]
        simp only [List.tail_cons, if_pos hcond]
        rw [mapErase_append_last hLne, mapErase_append_last hTne]
      rw [hred]
      refine ⟨⟨hpairL, hkT, hLlev⟩, ?_⟩
      subst hbr
      simp only [levelSum_append, levelSum_cons, levelSum_nil, sumQty_cons, sumQty_nil]
      omega
    · have hcond : ¬ mapLookup kb (T ++ [(kb, tv - q)]) = some 0 := by
        rw [mapLookup_append_last hTne]
        intro h
        exact htv0 (Option.some.inj h)
      have hred : buySideUpdate bo q (L ++ [(kb, bo :: brest)]) (T ++ [(kb, tv)]) =
          (L ++ [(kb, brest)], T ++ [(kb, tv - q)]) := by
        unfold buySideUpdate
        rw [hpr, modifyLastLevel_append, mapUpd_append_last hTlt]
        simp only [decFront, if_pos hq0]
        rw [modifyLastLevel_append]
        simp only [List.tail_cons, if_neg hcond]
      rw [hred]
      have hbrne : brest ≠ [] := by
        intro h
        rw [h] at htvq
        exact htv0 (by rw [htvq]; rfl)
      refine ⟨⟨?_, ?_, ?_⟩, ?_⟩
      · rw [keysOf_append, keysOf_cons, keysOf_nil, List.pairwise_append]
        exact ⟨hpairL, List.pairwise_singleton _ _, hallL⟩
      · rw [keysOf_append, keysOf_append, hkT]
        simp [keysOf]
      · intro pl hpl
        rcases List.mem_append.1 hpl with h | h
        · obtain ⟨h1, h2, h3⟩ := hLlev pl h
          refine ⟨h1, h2, ?_⟩
          rw [mapLookup_append_ne (hLne pl h), h3]
        · rcases List.mem_singleton.1 h with rfl
          refine ⟨hbrne, fun o ho => hords o (List.mem_cons_of_mem _ ho), ?_⟩
          rw [show (((kb : Int), brest).1 : Int) = kb from rfl,
            mapLookup_append_last hTne, htvq]
      · simp only [levelSum_append, levelSum_cons, levelSum_nil, sumQty_cons]
        omega
  · have hred : buySideUpdate bo q (L ++ [(kb, bo :: brest)]) (T ++ [(kb, tv)]) =
        (L ++ [(kb, { bo with quantity := bo.quantity - q } :: brest)], T ++ [(kb, tv - q)]) := by
      unfold buySideUpdate
      rw [hpr, modifyLastLevel_append, mapUpd_append_last hTlt]
      simp only [decFront, if_neg hq0]
      rw [hpr]
    rw [hred]
    refine ⟨⟨?_, ?_, ?_⟩, ?_⟩
    · rw [keysOf_append, keysOf_cons, keysOf_nil, List.pairwise_append]
      exact ⟨hpairL, List.pairwise_singleton _ _, hallL⟩
    · rw [keysOf_append, keysOf_append, hkT]
      simp [keysOf]
    · intro pl hpl
      rcases List.mem_append.1 hpl with h | h
      · obtain ⟨h1, h2, h3⟩ := hLlev pl h
        refine ⟨h1, h2, ?_⟩
        rw [mapLookup_append_ne (hLne pl h), h3]
      · rcases List.mem_singleton.1 h with rfl
        refine ⟨by simp, ?_, ?_⟩
        · intro o ho
          rcases List.mem_cons.1 ho with h' | h'
          · subst h'
            constructor
            · simp only []
              omega
            · simpa using hpr
          · exact hords o (List.mem_cons_of_mem _ h')
        · have hl : mapLookup
              (((kb : Int), { bo with quantity := bo.quantity - q } :: brest).1)
              (T ++ [(kb, tv - q)]) = some (tv - q) := mapLookup_append_last hTne
          rw [hl]
          have htv' : tv = bo.quantity + sumQty brest := by rw [htv, sumQty_cons]
          congr 1
          simp only [sumQty_cons]
          omega
    · simp only [levelSum_append, levelSum_cons, levelSum_nil, sumQty_cons]
      omega

theorem buySideUpdate_count {kb : Int} {bo : Order} {brest : List Order}
    {L : List (Int × List Order)} {tm : List (Int × Int)} {q : Int} :
    levelCount (buySideUpdate bo q (L ++ [(kb, bo :: brest)]) tm).1 ≤
      levelCount (L ++ [(kb, bo :: brest)]) ∧
    (bo.quantity - q = 0 →
      levelCount (buySideUpdate bo q (L ++ [(kb, bo :: brest)]) tm).1 <
        levelCount (L ++ [(kb, bo :: brest)])) := by
  unfold buySideUpdate
  rw [modifyLastLevel_append]
  by_cases hq0 : bo.quantity - q = 0
  · simp only [if_pos hq0]
    rw [modifyLastLevel_append]
    have hcount : levelCount (L ++ [(kb, (decFront q (bo :: brest)).tail)]) <
        levelCount (L ++ [(kb, bo :: brest)]) := by
      simp [decFront]
    by_cases hc : mapLookup bo.price
        (mapUpd bo.price 0 (· - q) tm) = some 0
    · simp only [if_pos hc]
      have := levelCount_mapErase_le
        (k := bo.price) (l := L ++ [(kb, (decFront q (bo :: brest)).tail)])
      constructor
      · omega
      · intro _; omega
    · simp only [if_neg hc]
      constructor
      · omega
      · intro _; omega
  · simp only [if_neg hq0]
    have hcount : levelCount (L ++ [(kb, decFront q (bo :: brest))]) =
        levelCount (L ++ [(kb, bo :: brest)]) := by
      simp [decFront]
    constructor
    · omega
    · intro h; exact absurd h hq0

theorem sellSideUpdate_count {ks : Int} {so : Order} {srest : List Order}
    {S : List (Int × List Order)} {tm : List (Int × Int)} {q : Int} :
    levelCount (sellSideUpdate so q ((ks, so :: srest) :: S) tm).1 ≤
      levelCount ((ks, so :: srest) :: S) ∧
    (so.quantity - q = 0 →
      levelCount (sellSideUpdate so q ((ks, so :: srest) :: S) tm).1 <
        levelCount ((ks, so :: srest) :: S)) := by
  unfold sellSideUpdate
  simp only [modifyHeadLevel, decFront]
  by_cases hq0 : so.quantity - q = 0
  · simp only [if_pos hq0, List.tail_cons]
    have hlt : levelCount ((ks, srest) :: S) < levelCount ((ks, so :: srest) :: S) := by
      simp only [levelCount_cons, List.length_cons]
      omega
    constructor
    · split
      · exact le_trans levelCount_mapErase_le (le_of_lt hlt)
      · exact le_of_lt hlt
    · intro _
      split
      · exact lt_of_le_of_lt levelCount_mapErase_le hlt
      · exact hlt
  · simp only [if_neg hq0]
    constructor
    · simp only [levelCount_cons, List.length_cons]
      omega
    · intro h; exact absurd h hq0

theorem matchStep_eq_some {bk : OrderBook} {t : Int × Int} {bk' : OrderBook}
    (h : matchStep bk = some (t, bk')) :
    ∃ kb bq ks sq bo so,
      bk.buy_orders.getLast? = some (kb, bq) ∧
      bk.sell_orders.head? = some (ks, sq) ∧
      bq.head? = some bo ∧ sq.head? = some so ∧
      ¬ bo.price < so.price ∧
      t = (min bo.quantity so.quantity,
           if bo.timestamp > so.timestamp then so.price else bo.price) ∧
      bk' = { buy_orders := (buySideUpdate bo (min bo.quantity so.quantity)
                bk.buy_orders bk.total_buy_orders_at_price).1,
              sell_orders := (sellSideUpdate so (min bo.quantity so.quantity)
                bk.sell_orders bk.total_sell_orders_at_price).1,
              total_buy_orders_at_price := (buySideUpdate bo (min bo.quantity so.quantity)
                bk.buy_orders bk.total_buy_orders_at_price).2,
              total_sell_orders_at_price := (sellSideUpdate so (min bo.quantity so.quantity)
                bk.sell_orders bk.total_sell_orders_at_price).2 } := by
  unfold matchStep at h
  split at h
  case h_2 => exact absurd h (by simp)
  case h_1 x y kb bq ks sq hgb hgs =>
    split at h
    case h_2 => exact absurd h (by simp)
    case h_1 bo so hbo hso =>
      split at h
      case isTrue => exact absurd h (by simp)
      case isFalse hlt =>
        simp only [Option.some.injEq, Prod.mk.injEq] at h
        obtain ⟨ht, hbk⟩ := h
        exact ⟨kb, bq, ks, sq, bo, so, hgb, hgs, hbo, hso, hlt, ht.symm, hbk.symm⟩

theorem matchStep_count {bk : OrderBook} {t : Int × Int} {bk' : OrderBook}
    (h : matchStep bk = some (t, bk')) : orderCount bk' < orderCount bk := by
  obtain ⟨kb, bq, ks, sq, bo, so, hgb, hgs, hbo, hso, hlt, ht, hbk⟩ := matchStep_eq_some h
  obtain ⟨L, hL⟩ := exists_concat_of_getLast? hgb
  obtain ⟨S, hS⟩ := exists_head_of_head? hgs
  obtain ⟨brest, hbq⟩ := exists_head_of_head? hbo
  obtain ⟨srest, hsq⟩ := exists_head_of_head? hso
  rw [hbq] at hL
  rw [hsq] at hS
  subst hbk
  have hq1 : min bo.quantity so.quantity ≤ bo.quantity := min_le_left _ _
  have hq2 : min bo.quantity so.quantity ≤ so.quantity := min_le_right _ _
  have hbuy := @buySideUpdate_count kb bo brest L
    bk.total_buy_orders_at_price (min bo.quantity so.quantity)
  have hsell := @sellSideUpdate_count ks so srest S
    bk.total_sell_orders_at_price (min bo.quantity so.quantity)
  simp only [orderCount, hL, hS]
  rcases le_total bo.quantity so.quantity with hc | hc
  · have h0 : bo.quantity - min bo.quantity so.quantity = 0 := by
      rw [min_eq_left hc]; omega
    have := hbuy.2 h0
    have := hsell.1
    omega
  · have h0 : so.quantity - min bo.quantity so.quantity = 0 := by
      rw [min_eq_right hc]; omega
    have := hsell.2 h0
    have := hbuy.1
    omega

theorem matchStep_wf_sum {bk : OrderBook} {q p : Int} {bk' : OrderBook}
    (hwf : WF bk) (h : matchStep bk = some ((q, p), bk')) :
    WF bk' ∧ bookRemaining bk' = bookRemaining bk - 2 * q := by
  obtain ⟨kb, bq, ks, sq, bo, so, hgb, hgs, hbo, hso, hlt, ht, hbk⟩ := matchStep_eq_some h
  obtain ⟨L, hL⟩ := exists_concat_of_getLast? hgb
  obtain ⟨S, hS⟩ := exists_head_of_head? hgs
  obtain ⟨brest, hbq⟩ := exists_head_of_head? hbo
  obtain ⟨srest, hsq⟩ := exists_head_of_head? hso
  rw [hbq] at hL
  rw [hsq] at hS
  injection ht with htq htp
  obtain ⟨hwfb, hwfs⟩ := hwf
  have hbmem : (kb, bo :: brest) ∈ bk.buy_orders := by
    rw [hL]; exact List.mem_append_right _ (List.mem_singleton_self _)
  have hsmem : (ks, so :: srest) ∈ bk.sell_orders := by
    rw [hS]; exact List.mem_cons_self _ _
  have hbpr : bo.price = kb :=
    ((hwfb.2.2 _ hbmem).2.1 bo (List.mem_cons_self _ _)).2
  have hspr : so.price = ks :=
    ((hwfs.2.2 _ hsmem).2.1 so (List.mem_cons_self _ _)).2
  have hq1 : min bo.quantity so.quantity ≤ bo.quantity := min_le_left _ _
  have hq2 : min bo.quantity so.quantity ≤ so.quantity := min_le_right _ _
  have hwfb' : sideWF (L ++ [(kb, bo :: brest)]) bk.total_buy_orders_at_price := by
    rw [← hL]; exact hwfb
  have hwfs' : sideWF ((ks, so :: srest) :: S) bk.total_sell_orders_at_price := by
    rw [← hS]; exact hwfs
  have hbuy := buySideUpdate_spec hwfb' hbpr hq1
  have hsell := sellSideUpdate_spec hwfs' hspr hq2
  subst hbk
  subst htq
  constructor
  · constructor
    · show sideWF (buySideUpdate bo (min bo.quantity so.quantity)
          bk.buy_orders bk.total_buy_orders_at_price).1
        (buySideUpdate bo (min bo.quantity so.quantity)
          bk.buy_orders bk.total_buy_orders_at_price).2
      rw [hL]
      exact hbuy.1
    · show sideWF (sellSideUpdate so (min bo.quantity so.quantity)
          bk.sell_orders bk.total_sell_orders_at_price).1
        (sellSideUpdate so (min bo.quantity so.quantity)
          bk.sell_orders bk.total_sell_orders_at_price).2
      rw [hS]
      exact hsell.1
  · show levelSum (buySideUpdate bo (min bo.quantity so.quantity)
        bk.buy_orders bk.total_buy_orders_at_price).1 +
      levelSum (sellSideUpdate so (min bo.quantity so.quantity)
        bk.sell_orders bk.total_sell_orders_at_price).1 =
      levelSum bk.buy_orders + levelSum bk.sell_orders - 2 * min bo.quantity so.quantity
    rw [hL, hS] at *
    have h1 := hbuy.2
    have h2 := hsell.2
    omega

/-! ### The matching loop -/

@[simp] theorem executeLoop_zero (bk : OrderBook) : executeLoop 0 bk = ([], bk) := rfl

theorem executeLoop_succ_none {f : Nat} {bk : OrderBook} (h : matchStep bk = none) :
    executeLoop (f + 1) bk = ([], bk) := by
  simp [executeLoop, h]

theorem executeLoop_succ_some {f : Nat} {bk : OrderBook} {t : Int × Int} {bk' : OrderBook}
    (h : matchStep bk = some (t, bk')) :
    executeLoop (f + 1) bk = (t :: (executeLoop f bk').1, (executeLoop f bk').2) := by
  simp [executeLoop, h]

theorem executeLoop_congr : ∀ (f g : Nat) (bk : OrderBook),
    orderCount bk < f → orderCount bk < g → executeLoop f bk = executeLoop g bk := by
  intro f
  induction f with
  | zero => intro g bk hf; omega
  | succ f ih =>
    intro g bk hf hg
    cases g with
    | zero => omega
    | succ g =>
      cases hstep : matchStep bk with
      | none => rw [executeLoop_succ_none hstep, executeLoop_succ_none hstep]
      | some r =>
        obtain ⟨t, bk1⟩ := r
        have hcount := matchStep_count hstep
        rw [executeLoop_succ_some hstep, executeLoop_succ_some hstep,
          ih g bk1 (by omega) (by omega)]

theorem execute_eq_none {bk : OrderBook} (h : matchStep bk = none) :
    execute_and_print_trades bk = ([], bk) := by
  unfold execute_and_print_trades
  exact executeLoop_succ_none h

theorem execute_eq_some {bk : OrderBook} {t : Int × Int} {bk' : OrderBook}
    (h : matchStep bk = some (t, bk')) :
    execute_and_print_trades bk =
      (t :: (execute_and_print_trades bk').1, (execute_and_print_trades bk').2) := by
  unfold execute_and_print_trades
  have hcount := matchStep_count h
  rw [executeLoop_succ_some h,
    executeLoop_congr (orderCount bk) (orderCount bk' + 1) bk' (by omega) (by omega)]

theorem executeLoop_wf {f : Nat} : ∀ {bk : OrderBook}, WF bk → WF (executeLoop f bk).2 := by
  induction f with
  | zero => intro bk h; exact h
  | succ f ih =>
    intro bk h
    cases hstep : matchStep bk with
    | none => rw [executeLoop_succ_none hstep]; exact h
    | some r =>
      obtain ⟨⟨tq, tp⟩, bk1⟩ := r
      rw [executeLoop_succ_some hstep]
      exact ih (matchStep_wf_sum h hstep).1

theorem execute_wf {bk : OrderBook} (h : WF bk) :
    WF (execute_and_print_trades bk).2 :=
  executeLoop_wf h

/-- Sum of the traded quantities of a trade list. -/
def tradeQtySum (ts : List (Int × Int)) : Int := (ts.map Prod.fst).sum

@[simp] theorem tradeQtySum_nil : tradeQtySum [] = 0 := rfl

@[simp] theorem tradeQtySum_cons (t : Int × Int) (ts : List (Int × Int)) :
    tradeQtySum (t :: ts) = t.1 + tradeQtySum ts := by
  simp [tradeQtySum]

theorem executeLoop_remaining {f : Nat} : ∀ {bk : OrderBook}, WF bk →
    bookRemaining (executeLoop f bk).2 =
      bookRemaining bk - 2 * tradeQtySum (executeLoop f bk).1 := by
  induction f with
  | zero => intro bk h; simp
  | succ f ih =>
    intro bk h
    cases hstep : matchStep bk with
    | none => rw [executeLoop_succ_none hstep]; simp
    | some r =>
      obtain ⟨⟨tq, tp⟩, bk1⟩ := r
      rw [executeLoop_succ_some hstep]
      obtain ⟨hwf1, hsum1⟩ := matchStep_wf_sum h hstep
      have := ih hwf1
      simp only [tradeQtySum_cons]
      omega

theorem matchStep_final_none (bk : OrderBook) :
    matchStep (execute_and_print_trades bk).2 = none := by
  suffices hgen : ∀ (n : Nat) (b : OrderBook), orderCount b ≤ n →
      matchStep (execute_and_print_trades b).2 = none by
    exact hgen (orderCount bk) bk le_rfl
  intro n
  induction n with
  | zero =>
    intro b hb
    cases hstep : matchStep b with
    | none => rw [execute_eq_none hstep]; exact hstep
    | some r =>
      obtain ⟨t, b1⟩ := r
      have := matchStep_count hstep
      omega
  | succ n ih =>
    intro b hb
    cases hstep : matchStep b with
    | none => rw [execute_eq_none hstep]; exact hstep
    | some r =>
      obtain ⟨t, b1⟩ := r
      have := matchStep_count hstep
      rw [execute_eq_some hstep]
      exact ih b1 (by omega)

/-! ### `add_order` preserves well-formedness -/

theorem digitsToNatAux_nil (n : Nat) : digitsToNatAux n [] = n := rfl

theorem digitsToNatAux_cons (n : Nat) (c : Char) (cs : List Char) :
    digitsToNatAux n (c :: cs) = digitsToNatAux (10 * n + digitVal c) cs := rfl

theorem digitsToNatAux_ge (cs : List Char) : ∀ n : Nat, n ≤ digitsToNatAux n cs := by
  induction cs with
  | nil => intro n; rw [digitsToNatAux_nil]
  | cons c cs ih =>
    intro n
    rw [digitsToNatAux_cons]
    have h1 : n ≤ 10 * n + digitVal c :=
      le_trans (Nat.le_mul_of_pos_left n (by norm_num)) (Nat.le_add_right _ _)
    exact le_trans h1 (ih _)

theorem quantity_regex_pos {s : String} (h : quantity_regex s = true) :
    1 ≤ digitsToNat s.data := by
  unfold quantity_regex at h
  cases hd : s.data with
  | nil => rw [hd] at h; simp at h
  | cons c cs =>
    rw [hd] at h
    simp only [Bool.and_eq_true, decide_eq_true_eq] at h
    obtain ⟨⟨h1, -⟩, -⟩ := h
    unfold digitsToNat
    rw [digitsToNatAux_cons]
    have h2 : 1 ≤ 10 * 0 + digitVal c := by
      simp only [Nat.mul_zero, Nat.zero_add]
      unfold digitVal
      omega
    exact le_trans h2 (digitsToNatAux_ge cs _)

theorem validate_VALID_qty {side : Char} {q p : String}
    (h : validate_inputs side q p = .ok .VALID) : quantity_regex q = true := by
  unfold validate_inputs at h
  split at h
  · exact absurd h (by simp)
  · split at h
    case isTrue hq => exact absurd h (by simp)
    case isFalse hq => simpa using hq

theorem sideWF_insert {om : List (Int × List Order)} {tm : List (Int × Int)}
    {o : Order} (hwf : sideWF om tm) (hq : 0 < o.quantity) :
    sideWF (mapUpd o.price [] (· ++ [o]) om) (mapUpd o.price 0 (· + o.quantity) tm) := by
  obtain ⟨hpair, hkeys, hlev⟩ := hwf
  have hpairT : List.Pairwise (· < ·) (keysOf tm) := by rw [hkeys]; exact hpair
  refine ⟨pairwise_mapUpd hpair, keysOf_mapUpd_congr hkeys, ?_⟩
  intro pl hpl
  rcases mem_mapUpd_sorted hpair pl hpl with ⟨hmem, hne⟩ | heq
  · obtain ⟨h1, h2, h3⟩ := hlev pl hmem
    refine ⟨h1, h2, ?_⟩
    rw [mapUpd_lookup_ne hne, h3]
  · subst heq
    have hself := mapLookup_mapUpd_self
      (k := o.price) (d := (0 : Int)) (f := (· + o.quantity)) (l := tm) hpairT
    cases hlk : mapLookup o.price om with
    | none =>
      have hnk : o.price ∉ keysOf om := mapLookup_eq_none.1 hlk
      have hnk' : mapLookup o.price tm = none := mapLookup_eq_none.2 (by rwa [hkeys])
      refine ⟨by simp, ?_, ?_⟩
      · intro x hx
        rcases List.mem_singleton.1 (show x ∈ [o] from hx) with rfl
        exact ⟨hq, rfl⟩
      · show mapLookup o.price (mapUpd o.price 0 (· + o.quantity) tm) =
          some (sumQty ((none : Option (List Order)).getD [] ++ [o]))
        rw [hself, hnk']
        simp [sumQty]
    | some oldq =>
      have hmemq : (o.price, oldq) ∈ om := mapLookup_mem hlk
      obtain ⟨h1, h2, h3⟩ := hlev (o.price, oldq) hmemq
      refine ⟨by simp, ?_, ?_⟩
      · intro x hx
        rcases List.mem_append.1 (show x ∈ oldq ++ [o] from hx) with hmo | hmo
        · exact h2 x hmo
        · rcases List.mem_singleton.1 hmo with rfl
          exact ⟨hq, rfl⟩
      · show mapLookup o.price (mapUpd o.price 0 (· + o.quantity) tm) =
          some (sumQty ((some oldq).getD [] ++ [o]))
        rw [hself]
        rw [show mapLookup ((o.price, oldq).1) tm = mapLookup o.price tm from rfl] at h3
        rw [h3]
        simp [sumQty]

theorem add_order_wf {bk : OrderBook} {side : Char} {qs ps : String} {ts : Int}
    {bk' : OrderBook} (h : add_order bk side qs ps ts = .ok bk') (hwf : WF bk) :
    WF bk' := by
  unfold add_order at h
  split at h
  · exact absurd h (by simp)
  case h_2 r hv =>
    split at h
    · exact absurd h (by simp)
    case isFalse hr =>
      have hrv : r = .VALID := by
        by_contra hne
        exact hr hne
      subst hrv
      split at h
      · exact absurd h (by simp)
      case h_2 f hf =>
        split at h
        · exact absurd h (by simp)
        case h_2 qn hqn =>
          have hq1 : 1 ≤ qn := by
            simp only [stolQty] at hqn
            split at hqn
            · have := quantity_regex_pos (validate_VALID_qty hv)
              have hq := Option.some.inj hqn
              omega
            · exact absurd hqn (by simp)
          have hqpos : (0 : Int) < (qn : Int) := by exact_mod_cast hq1
          split at h
          case isTrue hside =>
            rw [← AddResult.ok.inj h]
            exact ⟨sideWF_insert (o := ⟨side, qn, scaledOfF32 f, ts⟩) hwf.1 hqpos, hwf.2⟩
          case isFalse hside =>
            rw [← AddResult.ok.inj h]
            exact ⟨hwf.1, sideWF_insert (o := ⟨side, qn, scaledOfF32 f, ts⟩) hwf.2 hqpos⟩

/-! ### Best prices and best orders -/

/-- Price of the `rbegin()` buy level (highest bid), if any. -/
def bestBidPrice (bk : OrderBook) : Option Int := (bk.buy_orders.getLast?).map Prod.fst

/-- Price of the `begin()` sell level (lowest ask), if any. -/
def bestAskPrice (bk : OrderBook) : Option Int := (bk.sell_orders.head?).map Prod.fst

/-- The front order of the best buy level (`buy_orders.rbegin()->second.front()`). -/
def bestBuyOrder (bk : OrderBook) : Option Order :=
  (bk.buy_orders.getLast?).bind fun pl => pl.2.head?

/-- The front order of the best sell level (`sell_orders.begin()->second.front()`). -/
def bestSellOrder (bk : OrderBook) : Option Order :=
  (bk.sell_orders.head?).bind fun pl => pl.2.head?

theorem getLast?_eq_none_imp {α : Type} {l : List α} (h : l.getLast? = none) : l = [] := by
  induction l with
  | nil => rfl
  | cons a t ih =>
    cases t with
    | nil => simp at h
    | cons b t' =>
      rw [List.getLast?_cons_cons] at h
      exact absurd (ih h) (by simp)

theorem mem_of_getLast? {α : Type} {l : List α} {x : α} (h : l.getLast? = some x) : x ∈ l := by
  obtain ⟨l', rfl⟩ := exists_concat_of_getLast? h
  exact List.mem_append_right _ (List.mem_singleton_self _)

/-- The front orders rest at their levels' prices in a well-formed book. -/
theorem best_order_prices {bk : OrderBook} (hwf : WF bk) :
    (∀ kb bq bo, bk.buy_orders.getLast? = some (kb, bq) → bq.head? = some bo →
      bo.price = kb) ∧
    (∀ ks sq so, bk.sell_orders.head? = some (ks, sq) → sq.head? = some so →
      so.price = ks) := by
  constructor
  · intro kb bq bo hgb hbo
    obtain ⟨brest, rfl⟩ := exists_head_of_head? hbo
    exact ((hwf.1.2.2 _ (mem_of_getLast? hgb)).2.1 bo (List.mem_cons_self _ _)).2
  · intro ks sq so hgs hso
    obtain ⟨S, hS⟩ := exists_head_of_head? hgs
    have hmem : (ks, sq) ∈ bk.sell_orders := by rw [hS]; exact List.mem_cons_self _ _
    obtain ⟨srest, rfl⟩ := exists_head_of_head? hso
    exact ((hwf.2.2.2 _ hmem).2.1 so (List.mem_cons_self _ _)).2

/-- In a well-formed book every present level has a front order. -/
theorem best_levels_have_fronts {bk : OrderBook} (hwf : WF bk) :
    (∀ kb bq, bk.buy_orders.getLast? = some (kb, bq) → ∃ bo, bq.head? = some bo) ∧
    (∀ ks sq, bk.sell_orders.head? = some (ks, sq) → ∃ so, sq.head? = some so) := by
  constructor
  · intro kb bq hgb
    have hne : bq ≠ [] := (hwf.1.2.2 _ (mem_of_getLast? hgb)).1
    cases bq with
    | nil => exact absurd rfl hne
    | cons o r => exact ⟨o, rfl⟩
  · intro ks sq hgs
    obtain ⟨S, hS⟩ := exists_head_of_head? hgs
    have hmem : (ks, sq) ∈ bk.sell_orders := by rw [hS]; exact List.mem_cons_self _ _
    have hne : sq ≠ [] := (hwf.2.2.2 _ hmem).1
    cases sq with
    | nil => exact absurd rfl hne
    | cons o r => exact ⟨o, rfl⟩

theorem matchStep_none_wf {bk : OrderBook} (hwf : WF bk) (h : matchStep bk = none) :
    bk.buy_orders = [] ∨ bk.sell_orders = [] ∨
      ∃ pb ps, bestBidPrice bk = some pb ∧ bestAskPrice bk = some ps ∧ pb < ps := by
  cases hgb : bk.buy_orders.getLast? with
  | none => exact Or.inl (getLast?_eq_none_imp hgb)
  | some lb =>
    cases hgs : bk.sell_orders.head? with
    | none =>
      refine Or.inr (Or.inl ?_)
      cases hsl : bk.sell_orders with
      | nil => rfl
      | cons a t => rw [hsl] at hgs; simp at hgs
    | some ls =>
      obtain ⟨kb, bq⟩ := lb
      obtain ⟨ks, sq⟩ := ls
      obtain ⟨bo, hbo⟩ := (best_levels_have_fronts hwf).1 kb bq hgb
      obtain ⟨so, hso⟩ := (best_levels_have_fronts hwf).2 ks sq hgs
      have hbpr : bo.price = kb := (best_order_prices hwf).1 kb bq bo hgb hbo
      have hspr : so.price = ks := (best_order_prices hwf).2 ks sq so hgs hso
      unfold matchStep at h
      rw [hgb, hgs] at h
      simp only at h
      rw [hbo, hso] at h
      simp only at h
      split at h
      case isTrue hlt =>
        refine Or.inr (Or.inr ⟨kb, ks, ?_, ?_, ?_⟩)
        · simp [bestBidPrice, hgb]
        · simp [bestAskPrice, hgs]
        · rw [← hbpr, ← hspr]; exact hlt
      case isFalse => exact absurd h (by simp)

theorem matchStep_none_of_spread {bk : OrderBook} (hwf : WF bk) {pb ps : Int}
    (hb : bestBidPrice bk = some pb) (hs : bestAskPrice bk = some ps) (hlt : pb < ps) :
    matchStep bk = none := by
  unfold bestBidPrice at hb
  unfold bestAskPrice at hs
  cases hgb : bk.buy_orders.getLast? with
  | none => rw [hgb] at hb; simp at hb
  | some lb =>
    cases hgs : bk.sell_orders.head? with
    | none => rw [hgs] at hs; simp at hs
    | some ls =>
      obtain ⟨kb, bq⟩ := lb
      obtain ⟨ks, sq⟩ := ls
      rw [hgb] at hb
      rw [hgs] at hs
      have hpb : kb = pb := by simpa using hb
      have hps : ks = ps := by simpa using hs
      obtain ⟨bo, hbo⟩ := (best_levels_have_fronts hwf).1 kb bq hgb
      obtain ⟨so, hso⟩ := (best_levels_have_fronts hwf).2 ks sq hgs
      have hbpr : bo.price = kb := (best_order_prices hwf).1 kb bq bo hgb hbo
      have hspr : so.price = ks := (best_order_prices hwf).2 ks sq so hgs hso
      unfold matchStep
      rw [hgb, hgs]
      simp only
      rw [hbo, hso]
      simp only
      rw [if_pos (by rw [hbpr, hspr, hpb, hps]; exact hlt)]

/-! ## Claim theorems -/

theorem matchStep_price_rule {bk bk' : OrderBook} {q p : Int}
    (h : matchStep bk = some ((q, p), bk')) :
    ∃ bo so, bestBuyOrder bk = some bo ∧ bestSellOrder bk = some so ∧
      p = (if bo.timestamp > so.timestamp then so.price else bo.price) ∧
      so.price ≤ p ∧ p ≤ bo.price := by
  obtain ⟨kb, bq, ks, sq, bo, so, hgb, hgs, hbo, hso, hlt, ht, hbk⟩ := matchStep_eq_some h
  injection ht with htq htp
  refine ⟨bo, so, by simp [bestBuyOrder, hgb, hbo], by simp [bestSellOrder, hgs, hso],
    htp, ?_, ?_⟩
  · rw [htp]
    split <;> omega
  · rw [htp]
    split <;> omega

/-- Every trade of a whole matching pass is emitted by `matchStep` from some
intermediate book state. -/
theorem trades_from_steps (bk : OrderBook) :
    ∀ t ∈ (execute_and_print_trades bk).1, ∃ bk₀ bk₁, matchStep bk₀ = some (t, bk₁) := by
  suffices hgen : ∀ (n : Nat) (b : OrderBook), orderCount b ≤ n →
      ∀ t ∈ (execute_and_print_trades b).1, ∃ bk₀ bk₁, matchStep bk₀ = some (t, bk₁) by
    exact hgen (orderCount bk) bk le_rfl
  intro n
  induction n with
  | zero =>
    intro b hb t ht
    cases hstep : matchStep b with
    | none => rw [execute_eq_none hstep] at ht; simp at ht
    | some r =>
      obtain ⟨t', b1⟩ := r
      have := matchStep_count hstep
      omega
  | succ n ih =>
    intro b hb t ht
    cases hstep : matchStep b with
    | none => rw [execute_eq_none hstep] at ht; simp at ht
    | some r =>
      obtain ⟨t', b1⟩ := r
      have := matchStep_count hstep
      rw [execute_eq_some hstep] at ht
      rcases List.mem_cons.1 ht with rfl | hmem
      · exact ⟨b, b1, hstep⟩
      · exact ih b1 (by omega) t hmem

/-- C1: for every trade emitted by the matching engine, if the best bid's
sequence (timestamp) is strictly greater than the best ask's, the trade prints
at the ask's price, otherwise at the bid's price; in either case the trade
price lies between the ask's and the bid's price inclusive — both for the
single matching step and for every trade of a whole matching pass. -/
theorem c1_trade_price_rule (bk : OrderBook) :
    (∀ q p bk', matchStep bk = some ((q, p), bk') →
      ∃ bo so, bestBuyOrder bk = some bo ∧ bestSellOrder bk = some so ∧
        p = (if bo.timestamp > so.timestamp then so.price else bo.price) ∧
        so.price ≤ p ∧ p ≤ bo.price) ∧
    (∀ t ∈ (execute_and_print_trades bk).1, ∃ bk₀ bk₁ bo so,
      matchStep bk₀ = some (t, bk₁) ∧
      bestBuyOrder bk₀ = some bo ∧ bestSellOrder bk₀ = some so ∧
      t.2 = (if bo.timestamp > so.timestamp then so.price else bo.price) ∧
      so.price ≤ t.2 ∧ t.2 ≤ bo.price) := by
  constructor
  · intro q p bk' h
    exact matchStep_price_rule h
  · intro t ht
    obtain ⟨bk₀, bk₁, hstep⟩ := trades_from_steps bk t ht
    obtain ⟨q, p⟩ := t
    obtain ⟨bo, so, h1, h2, h3, h4, h5⟩ := matchStep_price_rule hstep
    exact ⟨bk₀, bk₁, bo, so, hstep, h1, h2, h3, h4, h5⟩

/-- Concrete book used by the witnesses: a crossed book whose single match
trades 3 at the earlier (buy) side's price 12000. -/
def bkCrossed : OrderBook :=
  ⟨[(12000, [⟨'B', 5, 12000, 1⟩])], [(10000, [⟨'S', 3, 10000, 2⟩])],
   [(12000, 5)], [(10000, 3)]⟩

def bkCrossedStepped : OrderBook :=
  ⟨[(12000, [⟨'B', 2, 12000, 1⟩])], [], [(12000, 2)], []⟩

theorem c1_trade_price_rule_witness :
    matchStep bkCrossed = some ((3, 12000), bkCrossedStepped) ∧
    ((∀ q p bk', matchStep bkCrossed = some ((q, p), bk') →
      ∃ bo so, bestBuyOrder bkCrossed = some bo ∧ bestSellOrder bkCrossed = some so ∧
        p = (if bo.timestamp > so.timestamp then so.price else bo.price) ∧
        so.price ≤ p ∧ p ≤ bo.price) ∧
    (∀ t ∈ (execute_and_print_trades bkCrossed).1, ∃ bk₀ bk₁ bo so,
      matchStep bk₀ = some (t, bk₁) ∧
      bestBuyOrder bk₀ = some bo ∧ bestSellOrder bk₀ = some so ∧
      t.2 = (if bo.timestamp > so.timestamp then so.price else bo.price) ∧
      so.price ≤ t.2 ∧ t.2 ≤ bo.price)) :=
  ⟨by decide, c1_trade_price_rule bkCrossed⟩

/-- C2: every match trades the minimum of the two best remaining quantities,
and the total remaining quantity of the book falls by exactly twice the traded
quantity per trade (also summed over a whole matching pass). -/
theorem c2_quantity_conservation (bk : OrderBook) (hwf : WF bk) :
    (∀ q p bk', matchStep bk = some ((q, p), bk') →
      (∃ bo so, bestBuyOrder bk = some bo ∧ bestSellOrder bk = some so ∧
        q = min bo.quantity so.quantity) ∧
      bookRemaining bk' = bookRemaining bk - 2 * q) ∧
    bookRemaining (execute_and_print_trades bk).2 =
      bookRemaining bk - 2 * tradeQtySum (execute_and_print_trades bk).1 := by
  constructor
  · intro q p bk' h
    obtain ⟨kb, bq, ks, sq, bo, so, hgb, hgs, hbo, hso, hlt, ht, hbk⟩ := matchStep_eq_some h
    injection ht with htq htp
    exact ⟨⟨bo, so, by simp [bestBuyOrder, hgb, hbo], by simp [bestSellOrder, hgs, hso], htq⟩,
      (matchStep_wf_sum hwf h).2⟩
  · exact executeLoop_remaining hwf

theorem c2_quantity_conservation_witness :
    WF bkCrossed ∧
    ((∀ q p bk', matchStep bkCrossed = some ((q, p), bk') →
      (∃ bo so, bestBuyOrder bkCrossed = some bo ∧ bestSellOrder bkCrossed = some so ∧
        q = min bo.quantity so.quantity) ∧
      bookRemaining bk' = bookRemaining bkCrossed - 2 * q) ∧
    bookRemaining (execute_and_print_trades bkCrossed).2 =
      bookRemaining bkCrossed - 2 * tradeQtySum (execute_and_print_trades bkCrossed).1) :=
  ⟨by decide, c2_quantity_conservation bkCrossed (by decide)⟩

/-- C3: a trade happens only when both sides are non-empty and best bid ≥ best
ask; when the spread is positive the loop stops with the book unchanged; and
when `execute_and_print_trades` returns, a side is empty or best bid < best ask
(the book is never left crossed). -/
theorem c3_loop_condition (bk : OrderBook) (hwf : WF bk) :
    (∀ t bk', matchStep bk = some (t, bk') →
      bk.buy_orders ≠ [] ∧ bk.sell_orders ≠ [] ∧
      ∃ pb ps, bestBidPrice bk = some pb ∧ bestAskPrice bk = some ps ∧ ps ≤ pb) ∧
    (∀ pb ps, bestBidPrice bk = some pb → bestAskPrice bk = some ps → pb < ps →
      execute_and_print_trades bk = ([], bk)) ∧
    (bk.buy_orders = [] ∨ bk.sell_orders = [] →
      execute_and_print_trades bk = ([], bk)) ∧
    ((execute_and_print_trades bk).2.buy_orders = [] ∨
     (execute_and_print_trades bk).2.sell_orders = [] ∨
     ∃ pb ps, bestBidPrice (execute_and_print_trades bk).2 = some pb ∧
       bestAskPrice (execute_and_print_trades bk).2 = some ps ∧ pb < ps) := by
  refine ⟨?_, ?_, ?_, ?_⟩
  · intro t bk' h
    obtain ⟨kb, bq, ks, sq, bo, so, hgb, hgs, hbo, hso, hlt, ht, hbk⟩ := matchStep_eq_some h
    have hbpr : bo.price = kb := (best_order_prices hwf).1 kb bq bo hgb hbo
    have hspr : so.price = ks := (best_order_prices hwf).2 ks sq so hgs hso
    refine ⟨?_, ?_, kb, ks, by simp [bestBidPrice, hgb], by simp [bestAskPrice, hgs], ?_⟩
    · intro he
      rw [he] at hgb
      simp at hgb
    · intro he
      rw [he] at hgs
      simp at hgs
    · rw [← hbpr, ← hspr]
      omega
  · intro pb ps hb hs hlt
    exact execute_eq_none (matchStep_none_of_spread hwf hb hs hlt)
  · intro hcase
    refine execute_eq_none ?_
    unfold matchStep
    rcases hcase with h | h
    · rw [h]
      rfl
    · rw [h]
      cases bk.buy_orders.getLast? with
      | none => rfl
      | some lb => obtain ⟨kb, bq⟩ := lb; rfl
  · exact matchStep_none_wf (execute_wf hwf) (matchStep_final_none bk)

theorem c3_loop_condition_witness :
    WF bkCrossed ∧
    ((∀ t bk', matchStep bkCrossed = some (t, bk') →
      bkCrossed.buy_orders ≠ [] ∧ bkCrossed.sell_orders ≠ [] ∧
      ∃ pb ps, bestBidPrice bkCrossed = some pb ∧ bestAskPrice bkCrossed = some ps ∧
        ps ≤ pb) ∧
    (∀ pb ps, bestBidPrice bkCrossed = some pb → bestAskPrice bkCrossed = some ps →
      pb < ps → execute_and_print_trades bkCrossed = ([], bkCrossed)) ∧
    (bkCrossed.buy_orders = [] ∨ bkCrossed.sell_orders = [] →
      execute_and_print_trades bkCrossed = ([], bkCrossed)) ∧
    ((execute_and_print_trades bkCrossed).2.buy_orders = [] ∨
     (execute_and_print_trades bkCrossed).2.sell_orders = [] ∨
     ∃ pb ps, bestBidPrice (execute_and_print_trades bkCrossed).2 = some pb ∧
       bestAskPrice (execute_and_print_trades bkCrossed).2 = some ps ∧ pb < ps)) :=
  ⟨by decide, c3_loop_condition bkCrossed (by decide)⟩

/-- The parts of the representation invariant named by the specification: every
present level has a non-empty queue, its stored aggregate equals the sum of the
remaining quantities of its queued orders, and no remaining quantity is
negative. -/
def levelsConsistent (bk : OrderBook) : Prop :=
  (∀ pl ∈ bk.buy_orders, pl.2 ≠ [] ∧
      mapLookup pl.1 bk.total_buy_orders_at_price = some (sumQty pl.2) ∧
      ∀ o ∈ pl.2, 0 ≤ o.quantity) ∧
  (∀ pl ∈ bk.sell_orders, pl.2 ≠ [] ∧
      mapLookup pl.1 bk.total_sell_orders_at_price = some (sumQty pl.2) ∧
      ∀ o ∈ pl.2, 0 ≤ o.quantity)

theorem WF_levelsConsistent {bk : OrderBook} (h : WF bk) : levelsConsistent bk := by
  constructor
  · intro pl hpl
    obtain ⟨h1, h2, h3⟩ := h.1.2.2 pl hpl
    exact ⟨h1, h3, fun o ho => le_of_lt (h2 o ho).1⟩
  · intro pl hpl
    obtain ⟨h1, h2, h3⟩ := h.2.2.2 pl hpl
    exact ⟨h1, h3, fun o ho => le_of_lt (h2 o ho).1⟩

/-- C4: after `add_order` and after `execute_and_print_trades`, each present
price level's stored aggregate equals the sum of its queued orders' remaining
quantities, no present level is empty, and no remaining quantity is negative. -/
theorem c4_level_invariants (bk : OrderBook) (hwf : WF bk) (side : Char)
    (qs ps : String) (ts : Int) :
    (∀ bk', add_order bk side qs ps ts = .ok bk' → levelsConsistent bk') ∧
    levelsConsistent (execute_and_print_trades bk).2 :=
  ⟨fun _ h => WF_levelsConsistent (add_order_wf h hwf),
   WF_levelsConsistent (execute_wf hwf)⟩

theorem c4_level_invariants_witness :
    WF bkCrossed ∧
    ((∀ bk', add_order bkCrossed 'B' "7" "11.5" 3 = .ok bk' → levelsConsistent bk') ∧
     levelsConsistent (execute_and_print_trades bkCrossed).2) :=
  ⟨by decide, c4_level_invariants bkCrossed (by decide) 'B' "7" "11.5" 3⟩

/-- C10: the per-price order-queue map and the per-price aggregate map of each
side always hold exactly the same keys, after `add_order` as well as after
`execute_and_print_trades`. -/
theorem c10_keyset_sync (bk : OrderBook) (hwf : WF bk) (side : Char)
    (qs ps : String) (ts : Int) :
    (∀ bk', add_order bk side qs ps ts = .ok bk' →
      keysOf bk'.total_buy_orders_at_price = keysOf bk'.buy_orders ∧
      keysOf bk'.total_sell_orders_at_price = keysOf bk'.sell_orders) ∧
    (keysOf (execute_and_print_trades bk).2.total_buy_orders_at_price =
       keysOf (execute_and_print_trades bk).2.buy_orders ∧
     keysOf (execute_and_print_trades bk).2.total_sell_orders_at_price =
       keysOf (execute_and_print_trades bk).2.sell_orders) := by
  constructor
  · intro bk' h
    have h' := add_order_wf h hwf
    exact ⟨h'.1.2.1, h'.2.2.1⟩
  · have h' := execute_wf hwf
    exact ⟨h'.1.2.1, h'.2.2.1⟩

theorem c10_keyset_sync_witness :
    WF bkCrossed ∧
    ((∀ bk', add_order bkCrossed 'S' "4" "12.75" 3 = .ok bk' →
      keysOf bk'.total_buy_orders_at_price = keysOf bk'.buy_orders ∧
      keysOf bk'.total_sell_orders_at_price = keysOf bk'.sell_orders) ∧
    (keysOf (execute_and_print_trades bkCrossed).2.total_buy_orders_at_price =
       keysOf (execute_and_print_trades bkCrossed).2.buy_orders ∧
     keysOf (execute_and_print_trades bkCrossed).2.total_sell_orders_at_price =
       keysOf (execute_and_print_trades bkCrossed).2.sell_orders)) :=
  ⟨by decide, c10_keyset_sync bkCrossed (by decide) 'S' "4" "12.75" 3⟩

end MarketEngine

deriving instance DecidableEq for Except

namespace MarketEngine

set_option maxRecDepth 40000
set_option exponentiation.threshold 5000

/-- C5 counterexample: the token `0.0009999999999` has exact value strictly
below one tick (0.001), so the claim demands `INVALID_PRICE`, yet
`validate_inputs` accepts it — `stof` rounds it up to the `float`
`0.001000000047…`, which is not below the double `0.001`. -/
theorem c5_validation_counterexample :
    validate_inputs 'B' "1" "0.0009999999999" = .ok .VALID ∧
    price_regex "0.0009999999999" = true ∧
    (priceTokenNumDen "0.0009999999999").1 * SCALE_FACTOR <
      (priceTokenNumDen "0.0009999999999").2 := by
  refine ⟨?_, by decide, by decide⟩
  decide

/-- C5 amended: validation checks side, then quantity, then price, reporting
only the first failure; the price threshold is evaluated on the token's
single-precision `stof` value compared against the double `0.001` (not on the
token's exact decimal value), and a price token whose value falls outside the
`float` range makes `stof` throw instead of producing a validation result. -/
theorem c5_validation_amended (side : Char) (q p : String) :
    (validate_inputs side q p = .ok .INVALID_SIDE ↔ ¬(side = 'B' ∨ side = 'S')) ∧
    (validate_inputs side q p = .ok .INVALID_QUANTITY ↔
      ((side = 'B' ∨ side = 'S') ∧ quantity_regex q = false)) ∧
    (validate_inputs side q p = .ok .INVALID_PRICE ↔
      ((side = 'B' ∨ side = 'S') ∧ quantity_regex q = true ∧
        (price_regex p = false ∨
          (∃ f, stofPrice p = some f ∧ fpLtB f tickDouble = true)))) ∧
    (validate_inputs side q p = .error () ↔
      ((side = 'B' ∨ side = 'S') ∧ quantity_regex q = true ∧ price_regex p = true ∧
        stofPrice p = none)) ∧
    (validate_inputs side q p = .ok .VALID ↔
      ((side = 'B' ∨ side = 'S') ∧ quantity_regex q = true ∧ price_regex p = true ∧
        (∃ f, stofPrice p = some f ∧ fpLtB f tickDouble = false))) := by
  unfold validate_inputs
  by_cases hs : side ≠ 'B' ∧ side ≠ 'S'
  · have hs' : ¬(side = 'B' ∨ side = 'S') := by tauto
    simp [hs, hs']
  · have hs' : side = 'B' ∨ side = 'S' := by tauto
    rw [if_neg hs]
    by_cases hq : quantity_regex q
    · rw [if_neg (by simp [hq])]
      by_cases hp : price_regex p
      · rw [if_neg (by simp [hp])]
        rcases hst : stofPrice p with _ | f
        · simp [hs', hq, hp]
        · by_cases hlt : fpLtB f tickDouble
          · simp [hs', hq, hp, hlt]
          · simp [hs', hq, hp, hlt]
      · rw [if_pos (by simp [hp])]
        simp [hs', hq, hp]
    · rw [if_pos (by simp [hq])]
      simp [hs', hq]

/-- C6: a rejected submission produces exactly one categorized error, no
trades, and an unchanged book, while the sequence counter still advances. -/
theorem c6_rejection_isolated (bk : OrderBook) (ts : Int) (side : Char)
    (q p : String) (e : ValidationResult)
    (hv : validate_inputs side q p = .ok e) (hne : e ≠ .VALID) :
    processSubmission bk ts side q p = .ok ⟨ts + 1, [e], [], bk⟩ := by
  unfold processSubmission add_order
  rw [hv]
  simp [hne]

/-- C6 witness: the specification's rejected-input scenario `N 65 9.8`. -/
theorem c6_rejection_isolated_witness :
    validate_inputs 'N' "65" "9.8" = .ok .INVALID_SIDE ∧
    ValidationResult.INVALID_SIDE ≠ .VALID ∧
    processSubmission bkCrossedStepped 7 'N' "65" "9.8" =
      .ok ⟨8, [.INVALID_SIDE], [], bkCrossedStepped⟩ :=
  ⟨by decide, by decide,
   c6_rejection_isolated bkCrossedStepped 7 'N' "65" "9.8" .INVALID_SIDE (by decide) (by decide)⟩

/-- C7: the code stores `trunc(float(0.251) * 1000) = 250` for the accepted
token `0.251`, while the exact decimal value scaled by 1000 and truncated is
251 — the float detour changes the stored tick, so scaling is not exact
truncation of the token's decimal value. -/
theorem c7_float_scaling_failing_input :
    validate_inputs 'B' "1" "0.251" = .ok .VALID ∧
    codeScaledPrice "0.251" = some 250 ∧
    exactScaledPrice "0.251" = 251 ∧
    add_order emptyBook 'B' "1" "0.251" 1 =
      .ok ⟨[(250, [⟨'B', 1, 250, 1⟩])], [], [(250, 1)], []⟩ := by
  refine ⟨by decide, by decide, by decide, ?_⟩
  decide

/-- C8 counterexample: the scaled price 10000 (i.e. 10.000) renders as `10` in
both the trade line and the book cell — zero decimal places, not the tick
size's three. -/
theorem c8_fixed_precision_counterexample :
    renderTradePrice 10000 = "10" ∧ renderBookPrice 10000 = "10" ∧
    decimalPlaces (renderTradePrice 10000) = 0 ∧
    decimalPlaces (renderBookPrice 10000) = 0 := by
  refine ⟨by decide, by decide, by decide, ?_⟩
  decide

/-- C8 amended: prices are rendered through default floating-point formatting,
which keeps at most the digits the value needs and strips trailing fractional
zeros instead of padding to three decimals: 10000 renders `10` (0 places),
9800 renders `9.8` (1 place), and only a price with a full sub-tick digit such
as 10234 renders with 3 places, `10.234` — in the trade printer and the book
printer alike. -/
theorem c8_rendering_amended :
    renderTradePrice 10000 = "10" ∧ renderBookPrice 10000 = "10" ∧
    renderTradePrice 9800 = "9.8" ∧ renderBookPrice 9800 = "9.8" ∧
    renderTradePrice 10234 = "10.234" ∧ renderBookPrice 10234 = "10.234" ∧
    decimalPlaces (renderTradePrice 10000) = 0 ∧
    decimalPlaces (renderTradePrice 9800) = 1 ∧
    decimalPlaces (renderTradePrice 10234) = 3 := by
  refine ⟨by decide, by decide, by decide, by decide, by decide, by decide,
    by decide, by decide, ?_⟩
  decide

/-- C9: the submission `B 9999999999999999999999 1.0` passes validation (the
quantity pattern has no range check), and then `stol` throws
`std::out_of_range` inside `add_order` — the validate→match pipeline is not
exception-free for inputs that pass validation. -/
theorem c9_stol_overflow_failing_input :
    validate_inputs 'B' "9999999999999999999999" "1.0" = .ok .VALID ∧
    quantity_regex "9999999999999999999999" = true ∧
    stolQty "9999999999999999999999" = none ∧
    add_order emptyBook 'B' "9999999999999999999999" "1.0" 1 = .exn ∧
    processSubmission emptyBook 0 'B' "9999999999999999999999" "1.0" = .error () := by
  refine ⟨by decide, by decide, by decide, by decide, ?_⟩
  decide

end MarketEngine
